import Mathlib

/-! Verification model of the OurNet-FuzzyIndex C core (src/parse.c).

The input buffer is modelled as a `List Nat` of byte values; the C null
terminator sits at index `buf.length`, and `readByte` yields 0 there and at
every later index (the model extends memory past the terminator with zero
bytes, which keeps the scanner deterministic; the instrumented variant
`extractReads` records which indices the scanner consults, so reads past the
terminator remain observable).  All loops carry explicit fuel, so every
definition is computable by the kernel; the drivers supply fuel that provably
exceeds the number of iterations the C loops can perform.  The in-place
lowercasing of ASCII runs (line 183 of parse.c) mutates only buffer positions
the scan has permanently moved past — no later read revisits them — so the
token stream of the pure model coincides with that of the mutating C code. -/

/-- Macro is_big5 (parse.c line 6): lead byte of a double-byte character.
The C macro converts the char through unsigned int; on the unsigned-char
buffer of extract_words this is exactly the byte value.  For the char-typed
entry words every token produced by this program starts with an alnum byte
(below 0x7b) or an ideograph lead (above 0xa3), where signed and unsigned
readings agree. -/
def is_big5 (b : Nat) : Bool := decide (0xa0 < b)

/-- Macro is_big5word (parse.c line 7): lead byte of a CJK ideograph
(excludes the 0xa1-0xa3 symbol sub-range). -/
def is_big5word (b : Nat) : Bool := decide (0xa3 < b)

/-- Macro is_alnum (parse.c line 8), byte-for-byte: three open ranges
(0x60,0x7b), (0x40,0x5b), (0x30,0x3b). -/
def is_alnum (b : Nat) : Bool :=
  (decide (0x60 < b) && decide (b < 0x7b)) || (decide (0x40 < b) && decide (b < 0x5b))
    || (decide (0x30 < b) && decide (b < 0x3b))

/-- MAXKEY (parse.c line 10): bound on ASCII token length. -/
def MAXKEY : Nat := 32

/-- MAXVAL (parse.c line 11): size of the val output buffer. -/
def MAXVAL : Nat := 32768

/-- Byte at index i of the buffer; index buf.length is the null terminator
and later indices also read as 0 in this model. -/
def readByte (buf : List Nat) (i : Nat) : Nat := buf.getD i 0

/-- The frequency byte written by every emitter:
en->freq > 0xa3 ? 0xa3 : en->freq  (parse.c lines 46, 57, 68, 76, 90, 93,
103, 106). -/
def capFreq (f : Nat) : Nat := if 0xa3 < f then 0xa3 else f

/-- In-place lowercasing of one byte (parse.c line 183):
if (*p > 0x40 && *p < 0x5b) *p += 32. -/
def lowerByte (b : Nat) : Nat := if 0x40 < b && b < 0x5b then b + 32 else b

/-- C-string read of n bytes starting at index i, as strncpy into a buffer
whose byte n is null: the copy stops at the first null byte
(parse.c lines 151, 156: strncpy(key, p-2, 4) with key[4]=0). -/
def cstrN (buf : List Nat) (i n : Nat) : List Nat :=
  ((List.range n).map (fun k => readByte buf (i + k))).takeWhile (fun b => b != 0)

/-- The single-character token built at parse.c lines 163-167 and 170-174:
key[2]=key[3]=0x21, strncpy(key, p, 2), key[4]=0.  If the second byte is
null the resulting C string ends there. -/
def uniTokAt (buf : List Nat) (i : Nat) : List Nat :=
  let b0 := readByte buf i
  let b1 := readByte buf (i + 1)
  if b0 = 0 then [] else if b1 = 0 then [b0] else [b0, b1, 0x21, 0x21]

/-- Length of the maximal run of is_alnum bytes starting at index p
(the do-while of parse.c lines 182-186). -/
def asciiRunLen (buf : List Nat) (p : Nat) : Nat :=
  ((buf.drop p).takeWhile (fun b => is_alnum b)).length

/-- The ASCII token of parse.c lines 188-192: the run, truncated to MAXKEY
bytes, with uppercase letters lowercased in place during the scan. -/
def asciiTokAt (buf : List Nat) (p : Nat) : List Nat :=
  (((buf.drop p).takeWhile (fun b => is_alnum b)).take MAXKEY).map lowerByte

/-- The inner bigram loop of parse.c lines 155-158:
while (is_big5word(p += 2)) { strncpy(key, p-2, 4); addentry(key); }.
Returns the emitted bigram tokens and the final position of p.  The
fuel-exhausted base returns p+2, matching one exit of the advance-then-test
loop; callers pass fuel exceeding the possible iteration count. -/
def bigLoop (buf : List Nat) : Nat → Nat → List (List Nat) × Nat
  | 0, p => ([], p + 2)
  | fuel + 1, p =>
    let q := p + 2
    if is_big5word (readByte buf q) then
      let r := bigLoop buf fuel q
      (cstrN buf p 4 :: r.1, r.2)
    else ([], q)

/-- The scanner loop of extract_words (parse.c lines 146-198), emitting the
sequence of tokens passed to addentry, in order.  One unit of fuel is one
iteration of the outer while loop. -/
def extractGo (qm : Bool) (buf : List Nat) : Nat → Nat → List (List Nat)
  | 0, _ => []
  | fuel + 1, p =>
    let b := readByte buf p
    if b = 0 then []
    else if is_big5 b then
      let p2 := p + 2
      if is_big5word (readByte buf p2) then
        let first := if is_big5word (readByte buf p) then [cstrN buf p 4] else []
        let r := bigLoop buf (buf.length + 2) p2
        let uni := if qm && is_big5word (readByte buf (r.2 - 4)) then []
                   else [uniTokAt buf (r.2 - 2)]
        first ++ r.1 ++ uni ++ extractGo qm buf fuel r.2
      else
        (if is_big5word (readByte buf p) then [uniTokAt buf p] else [])
          ++ extractGo qm buf fuel p2
    else if is_alnum b then
      let n := asciiRunLen buf p
      (if 1 < n then [asciiTokAt buf p] else []) ++ extractGo qm buf fuel (p + n)
    else
      extractGo qm buf fuel (p + 1)

/-- extract_words (parse.c lines 141-199) as the token stream it feeds to
addentry.  qm is the value of the query global during the scan. -/
def extract_words (qm : Bool) (buf : List Nat) : List (List Nat) :=
  extractGo qm buf (buf.length + 1) 0

/-- Instrumented companion of bigLoop: the buffer indices its tests read. -/
def bigLoopReads (buf : List Nat) : Nat → Nat → List Nat × Nat
  | 0, p => ([], p + 2)
  | fuel + 1, p =>
    let q := p + 2
    if is_big5word (readByte buf q) then
      let r := bigLoopReads buf fuel q
      (q :: r.1, r.2)
    else ([q], q)

/-- Instrumented companion of extractGo: the buffer indices consulted by the
scanner's tests (the while(*p) read, the is_big5word tests at p+2, p-2 and
p-4, and the is_alnum test), in order.  This under-approximates the C code's
reads (token copies read further bytes inside the same spans). -/
def extractReadsGo (qm : Bool) (buf : List Nat) : Nat → Nat → List Nat
  | 0, _ => []
  | fuel + 1, p =>
    let b := readByte buf p
    if b = 0 then [p]
    else if is_big5 b then
      let p2 := p + 2
      if is_big5word (readByte buf p2) then
        let r := bigLoopReads buf (buf.length + 2) p2
        p :: p2 :: p :: r.1 ++ [r.2 - 4, r.2 - 2] ++ extractReadsGo qm buf fuel r.2
      else
        p :: p2 :: p :: extractReadsGo qm buf fuel p2
    else if is_alnum b then
      p :: extractReadsGo qm buf fuel (p + asciiRunLen buf p)
    else
      p :: extractReadsGo qm buf fuel (p + 1)

/-- The buffer indices the scanner's tests consult on a full run. -/
def extractReads (qm : Bool) (buf : List Nat) : List Nat :=
  extractReadsGo qm buf (buf.length + 1) 0

/-- An entry of the frequency table (parse.c lines 14-17): a token and its
uncapped occurrence count. -/
structure Entry where
  word : List Nat
  freq : Nat

/-- strcmp-less-than on byte strings (unsigned byte comparison), the order
wordcmp (parse.c lines 112-116) induces on the tree. -/
def lexLt : List Nat → List Nat → Bool
  | _, [] => false
  | [], _ :: _ => true
  | a :: as, b :: bs => if a < b then true else if b < a then false else lexLt as bs

/-- Modelled from the spec: the Frequency Table ADT (avltree.c, which is not
under src/) is specified in sections 3 and 4.3 of the spec as an ordered
dictionary with findOrInsert/increment and in-order (byte-lexicographic)
traversal; it is modelled as a sorted association list.  addentry
(parse.c lines 119-133) inserts a new entry with freq 1 or increments the
existing entry's freq, with no cap. -/
def addentry : List Entry → List Nat → List Entry
  | [], w => [⟨w, 1⟩]
  | e :: es, w =>
    if e.word = w then ⟨e.word, e.freq + 1⟩ :: es
    else if lexLt w e.word then ⟨w, 1⟩ :: e :: es
    else e :: addentry es w

/-- The frequency table produced by feeding a token stream to addentry;
its list order is the in-order traversal order of the tree. -/
def buildTable (toks : List (List Nat)) : List Entry := toks.foldl addentry []

/-- One callback invocation with two byte-sequence arguments and a number
(PARSE_CB, parse.c line 29). -/
structure Rec where
  a1 : List Nat
  a2 : List Nat
  a3 : Nat
deriving DecidableEq

/-- One callback invocation of the word emitter, whose second argument is an
integer smuggled through the char* parameter (parse.c lines 103, 106). -/
structure WRec where
  a1 : List Nat
  a2 : Nat
  a3 : Nat

/-- Read a byte list as the C string it denotes (stop at the first null). -/
def cstrOf (xs : List Nat) : List Nat := xs.takeWhile (fun b => b != 0)

/-- Bytes 2 and 3 of an entry word: memcpy(dst, en->word+2, 2)
(parse.c lines 45, 56, 67). -/
def w2 (w : List Nat) : List Nat := [w.getD 2 0, w.getD 3 0]

/-- The same-prefix test of parse.c line 40:
(*(en->word) == *(last->word)) && (*(en->word+1) == *(last->word+1)). -/
def samePfx (a b : List Nat) : Bool :=
  a.headD 0 == b.headD 0 && a.getD 1 0 == b.getD 1 0

/-- The mutable state of the delimited emitter: the key and val scratch
buffers (val as the bytes written so far — the valp cursor always sits on
the last written byte, so val.length = valp - val + 1), the delimiter, the
last pointer, and the callback invocations made so far. -/
structure DState where
  key : List Nat
  val : List Nat
  dlm : List Nat
  last : Option (List Nat)
  out : List Rec

/-- cb_delim (parse.c lines 35-82), one visited entry.  CJK entry with an
open same-prefix group: append suffix and frequency byte (lines 45-46).
CJK entry otherwise: flush the open group if any (line 49), then start a
fresh group: key from the first two word bytes, val = delimiter, suffix,
frequency byte (lines 53-57, 64-68); record the entry as last (line 70).
ASCII entry: overwrite val with delimiter, two blanks and the frequency
byte and call back immediately (lines 73-78), leaving key and last alone. -/
def cb_delim (s : DState) (en : Entry) : DState :=
  if is_big5 (en.word.headD 0) then
    match s.last with
    | some lw =>
      if samePfx en.word lw then
        { s with val := s.val ++ w2 en.word ++ [capFreq en.freq], last := some en.word }
      else
        { s with out := s.out ++ [⟨s.key, s.val, s.val.length⟩],
                 key := cstrOf (en.word.take 2),
                 val := s.dlm ++ w2 en.word ++ [capFreq en.freq],
                 last := some en.word }
    | none =>
      { s with key := cstrOf (en.word.take 2),
               val := s.dlm ++ w2 en.word ++ [capFreq en.freq],
               last := some en.word }
  else
    { s with val := s.dlm ++ [0x20, 0x20, capFreq en.freq],
             out := s.out ++
               [⟨en.word, s.dlm ++ [0x20, 0x20, capFreq en.freq],
                 (s.dlm ++ [0x20, 0x20, capFreq en.freq]).length⟩] }

/-- The indices of the val buffer written by one cb_delim step: the append
path (parse.c lines 45-46) writes the three bytes after the cursor, i.e. at
indices val.length .. val.length+2; every other path rewinds valp to val and
writes indices 0..6.  No path checks any index against MAXVAL. -/
def cbDelimWrites (s : DState) (en : Entry) : List Nat :=
  if is_big5 (en.word.headD 0) then
    match s.last with
    | some lw =>
      if samePfx en.word lw then [s.val.length, s.val.length + 1, s.val.length + 2]
      else List.range 7
    | none => List.range 7
  else List.range 7

/-- cb_pair (parse.c lines 84-97). -/
def cb_pair (en : Entry) : Rec :=
  if is_big5 (en.word.headD 0) then
    ⟨cstrOf (en.word.take 2), en.word.drop 2, capFreq en.freq⟩
  else
    ⟨en.word, [0x20, 0x20], capFreq en.freq⟩

/-- cb_word (parse.c lines 99-110).  For an ASCII entry the C code passes
strcat(en->word, "  ") and (char*)strlen(en->word)+2 as the two arguments;
the length operand is the word's length before the strcat (the arguments
are evaluated right to left on the platforms this code targets), so the
second argument is the padded length. -/
def cb_word (en : Entry) : WRec :=
  if is_big5 (en.word.headD 0) then
    ⟨en.word, 4, capFreq en.freq⟩
  else
    ⟨en.word ++ [0x20, 0x20], en.word.length + 2, capFreq en.freq⟩

/-- The ordered traversal with cb_delim plus the post-traversal flush of
parse_delim (parse.c lines 210-215): tree_trav, then if last is set,
last->word[2] = 0 and a final callback with the key read from last->word. -/
def delimTravFrom (s0 : DState) (entries : List Entry) : DState × List Rec :=
  let s := entries.foldl cb_delim s0
  match s.last with
  | some lw => (s, s.out ++ [⟨cstrOf (lw.take 2), s.val, s.val.length⟩])
  | none => (s, s.out)

/-- The process globals of parse.c that survive between calls and are read
by a parse call: delim (line 21), query (line 23), and the key/val scratch
buffers (lines 19-20).  last (line 25) and cb (line 31) are always written
before use by parse_delim, and the tree is freshly initialised by
extract_words, so they need not persist in the model. -/
structure Globals where
  dlm : List Nat
  query : Bool
  key : List Nat
  val : List Nat

/-- memcpy(delim, seed, 4) (parse.c line 205). -/
def copy4 (xs : List Nat) : List Nat :=
  [xs.getD 0 0, xs.getD 1 0, xs.getD 2 0, xs.getD 3 0]

/-- parse_delim (parse.c lines 201-217): run extract_words (reading the
ambient query global), copy the 4-byte delimiter from seed, clear last,
traverse in order with cb_delim, flush a still-open group, destroy the
table.  Returns the globals as left for the next call, and the callback
invocations.  parse_delim has no query parameter and never writes query. -/
def parse_delim (g : Globals) (buf : List Nat) (seed : List Nat) :
    Globals × List Rec :=
  let table := buildTable (extract_words g.query buf)
  let d := copy4 seed
  let r := delimTravFrom { key := g.key, val := g.val, dlm := d, last := none, out := [] } table
  ({ dlm := d, query := g.query, key := r.1.key, val := r.1.val }, r.2)

/-- parse_pair (parse.c lines 219-225). -/
def parse_pair (g : Globals) (buf : List Nat) : List Rec :=
  (buildTable (extract_words g.query buf)).map cb_pair

/-- parse_word (parse.c lines 228-234). -/
def parse_word (g : Globals) (buf : List Nat) : List WRec :=
  (buildTable (extract_words g.query buf)).map cb_word

/-- A well-formed unit of the input buffer: either a single non-lead byte or
a two-byte character whose lead byte is above 0xa0. -/
inductive Item where
  | ascii : Nat → Item
  | dbyte : Nat → Nat → Item

/-- Bytes of one item. -/
def Item.render : Item → List Nat
  | .ascii b => [b]
  | .dbyte l t => [l, t]

/-- Byte rendering of an item sequence, the actual input buffer. -/
def render (items : List Item) : List Nat := (items.map Item.render).flatten

/-- Well-formedness of an item: bytes are nonzero byte values, an ascii item
is not a lead byte, a dbyte item has a lead byte (above 0xa0). -/
def Item.wfb : Item → Bool
  | .ascii b => decide (0 < b ∧ b ≤ 0xa0)
  | .dbyte l t => decide (0xa0 < l ∧ l ≤ 0xff ∧ 0 < t ∧ t ≤ 0xff)

/-- An item whose lead byte is in the CJK-ideograph range. -/
def Item.isIdeo : Item → Bool
  | .ascii _ => false
  | .dbyte l _ => is_big5word l

/-- The (lead, trail) pair of an item (ascii items never feed this in a
well-formed run). -/
def charOf : Item → Nat × Nat
  | .ascii b => (b, b)
  | .dbyte l t => (l, t)

/-- First byte of the rendered sequence (0 when empty, i.e. terminator). -/
def headByteI : List Item → Nat
  | [] => 0
  | .ascii b :: _ => b
  | .dbyte l _ :: _ => l

/-- Bytes of the maximal leading run of alnum ascii items. -/
def alnumBytes : List Item → List Nat
  | .ascii b :: rest => if is_alnum b then b :: alnumBytes rest else []
  | _ => []

/-- Items remaining after the maximal leading run of alnum ascii items. -/
def alnumDrop : List Item → List Item
  | .ascii b :: rest => if is_alnum b then alnumDrop rest else .ascii b :: rest
  | xs => xs

/-- Whether the first item is an ideograph character. -/
def ideoHead : List Item → Bool
  | .dbyte l _ :: _ => is_big5word l
  | _ => false

/-- Characters of the maximal leading run of ideograph items. -/
def ideoRun : List Item → List (Nat × Nat)
  | .dbyte l t :: rest => if is_big5word l then (l, t) :: ideoRun rest else []
  | _ => []

/-- Items remaining after the maximal leading run of ideograph items. -/
def ideoDrop : List Item → List Item
  | .dbyte l t :: rest => if is_big5word l then ideoDrop rest else .dbyte l t :: rest
  | xs => xs

/-- Whether the last item of the sequence is an ideograph character. -/
def lastIdeo (xs : List Item) : Bool :=
  match xs.getLast? with
  | some it => it.isIdeo
  | none => false

/-- The 4-byte bigram tokens of each adjacent pair of a character run. -/
def pairsTok : List (Nat × Nat) → List (List Nat)
  | c :: d :: rest => [c.1, c.2, d.1, d.2] :: pairsTok (d :: rest)
  | _ => []

/-- Second-to-last element of a character list (junk default when shorter
than 2). -/
def penultD (xs : List (Nat × Nat)) : Nat × Nat := xs.getD (xs.length - 2) (0, 0)

/-- Item-level restatement of the scanner: consumes whole items, one unit of
fuel per outer iteration, mirroring extractGo case by case on well-formed
buffers. -/
def itemScanGo (qm : Bool) : Nat → List Item → List (List Nat)
  | 0, _ => []
  | _ + 1, [] => []
  | fuel + 1, .ascii b :: rest =>
    if is_alnum b then
      let run := b :: alnumBytes rest
      (if 1 < run.length then [(run.take MAXKEY).map lowerByte] else [])
        ++ itemScanGo qm fuel (alnumDrop rest)
    else itemScanGo qm fuel rest
  | fuel + 1, .dbyte l t :: rest =>
    if ideoHead rest then
      let run := ideoRun rest
      let chars := (l, t) :: run
      (if is_big5word l then
        [[l, t, (run.headD (0, 0)).1, (run.headD (0, 0)).2]] else [])
        ++ pairsTok run
        ++ (if qm && is_big5word (penultD chars).1 then []
            else [[(run.getLastD (0, 0)).1, (run.getLastD (0, 0)).2, 0x21, 0x21]])
        ++ itemScanGo qm fuel (ideoDrop rest)
    else
      (if is_big5word l then [[l, t, 0x21, 0x21]] else []) ++ itemScanGo qm fuel rest

/-- Byte flattening of a character-pair list. -/
def flatC (cs : List (Nat × Nat)) : List Nat := (cs.map (fun c => [c.1, c.2])).flatten

/-- Entry well-formedness for a CJK token of this program: 4 nonzero bytes
with an ideograph lead byte (both bigrams and marker-padded unigrams). -/
def cjkwfE (e : Entry) : Bool :=
  e.word.length == 4 && is_big5word (e.word.headD 0)
    && e.word.all (fun b => b != 0)

/-- Entry well-formedness for an ASCII token: nonempty, first byte not a
lead byte. -/
def asciiwfE (e : Entry) : Bool :=
  decide (0 < e.word.length) && !is_big5 (e.word.headD 0)

/-- The value-blob triples of one group: suffix bytes 2-3 and the capped
frequency byte, per entry. -/
def triples (g : List Entry) : List Nat :=
  (g.map (fun e => w2 e.word ++ [capFreq e.freq])).flatten

/-- Grouping of a CJK entry list into maximal runs of consecutive entries
sharing their first two word bytes, carrying the currently open group. -/
def groupsC (acc : List Entry) : List Entry → List (List Entry)
  | [] => [acc]
  | e :: es =>
    if samePfx e.word ((acc.headD ⟨[], 0⟩).word) then groupsC (acc ++ [e]) es
    else acc :: groupsC [e] es

/-- Maximal same-prefix groups of consecutive entries. -/
def groups : List Entry → List (List Entry)
  | [] => []
  | e :: es => groupsC [e] es

/-- The single callback record the delimited emitter produces for one
same-prefix group, given the delimiter. -/
def groupRec (d : List Nat) (g : List Entry) : Rec :=
  ⟨(g.headD ⟨[], 0⟩).word.take 2, d ++ triples g, 4 + 3 * g.length⟩

/-- The immediate callback record the delimited emitter produces for one
ASCII entry. -/
def asciiRec (d : List Nat) (e : Entry) : Rec :=
  ⟨e.word, d ++ [0x20, 0x20, capFreq e.freq], 7⟩

/-- Byte-lexicographic sortedness of a table, the in-order traversal
guarantee of the Frequency Table ADT. -/
abbrev SortedE (es : List Entry) : Prop :=
  List.Pairwise (fun a b => lexLt a.word b.word = true) es

/-- The item sequence of a CJK character run: one double-byte item per
(lead, trail) character pair. -/
def runItems (cs : List (Nat × Nat)) : List Item :=
  cs.map (fun c => Item.dbyte c.1 c.2)

/-- The item scanner at its canonical fuel, which always suffices (one unit
per outer-loop iteration, and every iteration consumes at least one item). -/
def itemScan (qm : Bool) (zs : List Item) : List (List Nat) :=
  itemScanGo qm (zs.length + 1) zs

/-- Well-formedness of a run character: ideograph lead byte (above 0xa3)
and nonzero trail byte, the character class the inner loop of parse.c
lines 155-158 consumes. -/
def wfChar (c : Nat × Nat) : Bool :=
  decide (0xa3 < c.1 ∧ c.1 ≤ 0xff ∧ 0 < c.2 ∧ c.2 ≤ 0xff)


/-- Reads at or past the terminator index give the null byte. -/
theorem readByte_past (X : List Nat) (i : Nat) (h : X.length ≤ i) : readByte X i = 0 :=
  List.getD_eq_default X 0 h

/-- Reads at an offset beyond a known prefix land in the suffix. -/
theorem readByte_right (X Y : List Nat) (j : Nat) :
    readByte (X ++ Y) (X.length + j) = readByte Y j := by
  unfold readByte
  rw [List.getD_append_right X Y 0 (X.length + j) (Nat.le_add_right _ _)]
  simp

theorem render_cons (it : Item) (zs : List Item) :
    render (it :: zs) = it.render ++ render zs := by
  simp [render]

theorem render_length_ge (zs : List Item) : zs.length ≤ (render zs).length := by
  induction zs with
  | nil => simp [render]
  | cons it rest ih =>
    rw [render_cons]
    cases it <;> simp [Item.render] <;> omega

/-- The byte the scanner sees at an item boundary is the head byte of the
remaining items (or the terminator). -/
theorem readByte_render_head (A : List Nat) (zs : List Item) :
    readByte (A ++ render zs) A.length = headByteI zs := by
  cases zs with
  | nil =>
    simp only [render, List.map_nil, List.flatten_nil, List.append_nil, headByteI]
    exact readByte_past A A.length (Nat.le_refl _)
  | cons it rest =>
    rw [render_cons]
    have h0 : readByte (A ++ (it.render ++ render rest)) (A.length + 0) =
        readByte (it.render ++ render rest) 0 := readByte_right A _ 0
    simp only [Nat.add_zero] at h0
    rw [h0]
    cases it <;> simp [Item.render, readByte, headByteI]

theorem wfb_ascii {b : Nat} (h : (Item.ascii b).wfb = true) : 0 < b ∧ b ≤ 0xa0 := by
  simpa [Item.wfb] using h

theorem wfb_dbyte {l t : Nat} (h : (Item.dbyte l t).wfb = true) :
    0xa0 < l ∧ l ≤ 0xff ∧ 0 < t ∧ t ≤ 0xff := by
  simpa [Item.wfb] using h

theorem is_alnum_iff (b : Nat) :
    is_alnum b = true ↔
      (0x60 < b ∧ b < 0x7b) ∨ (0x40 < b ∧ b < 0x5b) ∨ (0x30 < b ∧ b < 0x3b) := by
  simp only [is_alnum, Bool.or_eq_true, Bool.and_eq_true, decide_eq_true_eq]
  tauto

theorem not_alnum_of_lead {b : Nat} (h : 0xa0 < b) : is_alnum b = false := by
  rw [Bool.eq_false_iff]
  intro hc
  rw [is_alnum_iff] at hc
  omega

-- ## lexLt: the strcmp order

theorem lexLt_trans : ∀ a b c, lexLt a b = true → lexLt b c = true → lexLt a c = true := by
  intro a
  induction a with
  | nil =>
    intro b c hab hbc
    cases b with
    | nil => simp [lexLt] at hab
    | cons y ys =>
      cases c with
      | nil => simp [lexLt] at hbc
      | cons z zs => simp [lexLt]
  | cons x xs ih =>
    intro b c hab hbc
    cases b with
    | nil => simp [lexLt] at hab
    | cons y ys =>
      cases c with
      | nil => simp [lexLt] at hbc
      | cons z zs =>
        simp only [lexLt] at hab hbc ⊢
        rcases Nat.lt_trichotomy x y with h1 | h1 | h1
        · rcases Nat.lt_trichotomy y z with h2 | h2 | h2
          · rw [if_pos (Nat.lt_trans h1 h2)]
          · subst h2
            rw [if_pos h1]
          · rw [if_neg (by omega), if_pos h2] at hbc
            simp at hbc
        · subst h1
          rcases Nat.lt_trichotomy x z with h2 | h2 | h2
          · rw [if_pos h2]
          · subst h2
            rw [if_neg (Nat.lt_irrefl x), if_neg (Nat.lt_irrefl x)] at hab hbc ⊢
            exact ih ys zs hab hbc
          · rw [if_neg (by omega), if_pos h2] at hbc
            simp at hbc
        · rw [if_neg (by omega), if_pos h1] at hab
          simp at hab

theorem lexLt_total : ∀ a b : List Nat, a = b ∨ lexLt a b = true ∨ lexLt b a = true := by
  intro a
  induction a with
  | nil =>
    intro b
    cases b with
    | nil => exact Or.inl rfl
    | cons y ys => exact Or.inr (Or.inl (by simp [lexLt]))
  | cons x xs ih =>
    intro b
    cases b with
    | nil => exact Or.inr (Or.inr (by simp [lexLt]))
    | cons y ys =>
      rcases Nat.lt_trichotomy x y with h1 | h1 | h1
      · refine Or.inr (Or.inl ?_)
        simp only [lexLt]
        rw [if_pos h1]
      · subst h1
        rcases ih ys with h | h | h
        · exact Or.inl (by rw [h])
        · refine Or.inr (Or.inl ?_)
          simp only [lexLt]
          rw [if_neg (Nat.lt_irrefl x), if_neg (Nat.lt_irrefl x)]
          exact h
        · refine Or.inr (Or.inr ?_)
          simp only [lexLt]
          rw [if_neg (Nat.lt_irrefl x), if_neg (Nat.lt_irrefl x)]
          exact h
      · refine Or.inr (Or.inr ?_)
        simp only [lexLt]
        rw [if_pos h1]

theorem mem_addentry : ∀ (es : List Entry) (w : List Nat) (e : Entry),
    e ∈ addentry es w → e ∈ es ∨ e.word = w := by
  intro es
  induction es with
  | nil =>
    intro w e he
    simp only [addentry, List.mem_singleton] at he
    exact Or.inr (by rw [he])
  | cons e' es ih =>
    intro w e he
    simp only [addentry] at he
    by_cases h1 : e'.word = w
    · rw [if_pos h1] at he
      rcases List.mem_cons.mp he with h | h
      · exact Or.inr (by rw [h]; exact h1)
      · exact Or.inl (List.mem_cons_of_mem _ h)
    · rw [if_neg h1] at he
      by_cases h2 : lexLt w e'.word = true
      · rw [if_pos h2] at he
        rcases List.mem_cons.mp he with h | h
        · exact Or.inr (by rw [h])
        · exact Or.inl h
      · rw [if_neg h2] at he
        rcases List.mem_cons.mp he with h | h
        · exact Or.inl (by rw [h]; exact List.mem_cons_self _ _)
        · rcases ih w e h with h' | h'
          · exact Or.inl (List.mem_cons_of_mem _ h')
          · exact Or.inr h'

theorem addentry_sorted : ∀ (es : List Entry) (w : List Nat),
    SortedE es → SortedE (addentry es w) := by
  intro es
  induction es with
  | nil =>
    intro w _
    simp [addentry]
  | cons e es ih =>
    intro w hs
    have hs1 : ∀ x ∈ es, lexLt e.word x.word = true := (List.pairwise_cons.mp hs).1
    have hs2 : SortedE es := (List.pairwise_cons.mp hs).2
    simp only [addentry]
    by_cases h1 : e.word = w
    · rw [if_pos h1]
      exact List.Pairwise.cons hs1 hs2
    · rw [if_neg h1]
      by_cases h2 : lexLt w e.word = true
      · rw [if_pos h2]
        refine List.Pairwise.cons ?_ (List.Pairwise.cons hs1 hs2)
        intro x hx
        rcases List.mem_cons.mp hx with h | h
        · rw [h]
          exact h2
        · exact lexLt_trans _ _ _ h2 (hs1 x h)
      · rw [if_neg h2]
        refine List.Pairwise.cons ?_ (ih w hs2)
        intro x hx
        rcases mem_addentry es w x hx with h | h
        · exact hs1 x h
        · rw [h]
          rcases lexLt_total e.word w with h' | h' | h'
          · exact absurd h' h1
          · exact h'
          · exact absurd h' h2

theorem buildTable_sorted_aux : ∀ (toks : List (List Nat)) (es : List Entry),
    SortedE es → SortedE (toks.foldl addentry es) := by
  intro toks
  induction toks with
  | nil =>
    intro es hs
    exact hs
  | cons t toks ih =>
    intro es hs
    exact ih (addentry es t) (addentry_sorted es t hs)

/-- C5: on a buffer whose last byte before the terminator is a lead byte,
the scanner advances p by two, lands one position past the terminator
(index 2 of the one-byte buffer, whose terminator sits at index 1), reads
that out-of-buffer position, and instead of skipping the byte it still
emits a malformed one-byte token for it. -/
theorem trailing_lead_reads_past_terminator :
    2 ∈ extractReads false [0xa5] ∧ ([0xa5] : List Nat).length + 1 = 2 ∧
      extract_words false [0xa5] = [[0xa5]] := by decide

/-- C6: the delimited emitter's append path (group already open, same
prefix) writes the three bytes of the new suffix-and-frequency triple at
val indices val.length, val.length+1, val.length+2 unconditionally — no
path of cb_delim compares any write index with MAXVAL — and the traversal
continues normally (the callback log is unchanged, the value grows by 3)
instead of raising any buffer-exhausted condition; so once the group blob
reaches the end of the MAXVAL-byte buffer the next append writes past it. -/
theorem delim_append_unchecked (s : DState) (en : Entry) (lw : List Nat)
    (hb : is_big5 (en.word.headD 0) = true) (hl : s.last = some lw)
    (hp : samePfx en.word lw = true) :
    cbDelimWrites s en = [s.val.length, s.val.length + 1, s.val.length + 2] ∧
    s.val.length + 2 ∈ cbDelimWrites s en ∧
    (cb_delim s en).val.length = s.val.length + 3 ∧
    (cb_delim s en).out = s.out := by
  simp only [List.headD_eq_head?_getD] at hb
  refine ⟨?_, ?_, ?_, ?_⟩ <;>
    simp [cbDelimWrites, cb_delim, hb, hl, hp, w2]

/-- Witness for C6: a state whose group blob has reached 32766 bytes
(10920 appended triples after the 7-byte group start — the cursor growth is
3 bytes per appended entry), where the append writes index 32768, out of
bounds of the MAXVAL-byte val buffer. -/
theorem delim_append_unchecked_witness :
    (is_big5 (([0xa4, 0x40, 0xa4, 0x42] : List Nat).headD 0) = true ∧
      (⟨[0xa4, 0x40], List.replicate 32766 0x21, [1, 2, 3, 4],
          some [0xa4, 0x40, 0xa4, 0x41], []⟩ : DState).last =
        some [0xa4, 0x40, 0xa4, 0x41] ∧
      samePfx [0xa4, 0x40, 0xa4, 0x42] [0xa4, 0x40, 0xa4, 0x41] = true ∧
      MAXVAL ≤ (List.replicate 32766 (0x21 : Nat)).length + 2) ∧
    (cbDelimWrites ⟨[0xa4, 0x40], List.replicate 32766 0x21, [1, 2, 3, 4],
          some [0xa4, 0x40, 0xa4, 0x41], []⟩ ⟨[0xa4, 0x40, 0xa4, 0x42], 5⟩ =
        [(List.replicate 32766 (0x21 : Nat)).length,
          (List.replicate 32766 (0x21 : Nat)).length + 1,
          (List.replicate 32766 (0x21 : Nat)).length + 2] ∧
      (List.replicate 32766 (0x21 : Nat)).length + 2 ∈
        cbDelimWrites ⟨[0xa4, 0x40], List.replicate 32766 0x21, [1, 2, 3, 4],
          some [0xa4, 0x40, 0xa4, 0x41], []⟩ ⟨[0xa4, 0x40, 0xa4, 0x42], 5⟩ ∧
      (cb_delim ⟨[0xa4, 0x40], List.replicate 32766 0x21, [1, 2, 3, 4],
          some [0xa4, 0x40, 0xa4, 0x41], []⟩ ⟨[0xa4, 0x40, 0xa4, 0x42], 5⟩).val.length =
        (List.replicate 32766 (0x21 : Nat)).length + 3 ∧
      (cb_delim ⟨[0xa4, 0x40], List.replicate 32766 0x21, [1, 2, 3, 4],
          some [0xa4, 0x40, 0xa4, 0x41], []⟩ ⟨[0xa4, 0x40, 0xa4, 0x42], 5⟩).out = []) :=
  ⟨⟨by decide, rfl, by decide, by rw [List.length_replicate]; decide⟩,
    delim_append_unchecked _ _ _ (by decide) rfl (by decide)⟩

/-- C8: the word emitter's contract: for a CJK entry the token itself is
passed with the fixed sentinel 4 as second argument; for an ASCII entry of
original byte length L the token is passed right-padded with exactly two
blank bytes and the second argument is L + 2, the padded byte length. -/
theorem word_emitter_contract (en : Entry) :
    (is_big5 (en.word.headD 0) = true →
      (cb_word en).a1 = en.word ∧ (cb_word en).a2 = 4) ∧
    (is_big5 (en.word.headD 0) = false →
      (cb_word en).a1 = en.word ++ [0x20, 0x20] ∧
        (cb_word en).a2 = en.word.length + 2) := by
  unfold cb_word
  constructor <;> intro h
  · rw [if_pos h]
    exact ⟨rfl, rfl⟩
  · rw [if_neg (by rw [h]; simp)]
    exact ⟨rfl, rfl⟩

/-- Witness for C8: the contract applied at a concrete CJK entry and a
concrete ASCII entry. -/
theorem word_emitter_contract_witness :
    (is_big5 ((⟨[0xa4, 0x40, 0xa4, 0x41], 200⟩ : Entry).word.headD 0) = true ∧
      ((cb_word ⟨[0xa4, 0x40, 0xa4, 0x41], 200⟩).a1 = [0xa4, 0x40, 0xa4, 0x41] ∧
        (cb_word ⟨[0xa4, 0x40, 0xa4, 0x41], 200⟩).a2 = 4)) ∧
    (is_big5 ((⟨[0x68, 0x69], 3⟩ : Entry).word.headD 0) = false ∧
      ((cb_word ⟨[0x68, 0x69], 3⟩).a1 = [0x68, 0x69] ++ [0x20, 0x20] ∧
        (cb_word ⟨[0x68, 0x69], 3⟩).a2 = ([0x68, 0x69] : List Nat).length + 2)) :=
  ⟨⟨by decide, (word_emitter_contract ⟨[0xa4, 0x40, 0xa4, 0x41], 200⟩).1 (by decide)⟩,
   ⟨by decide, (word_emitter_contract ⟨[0x68, 0x69], 3⟩).2 (by decide)⟩⟩

-- ## Delimited-emitter lemmas

theorem samePfx_iff (a b : List Nat) :
    samePfx a b = true ↔ a.headD 0 = b.headD 0 ∧ a.getD 1 0 = b.getD 1 0 := by
  simp [samePfx, Bool.and_eq_true]

theorem samePfx_symm {a b : List Nat} (h : samePfx a b = true) : samePfx b a = true := by
  rw [samePfx_iff] at h ⊢
  exact ⟨h.1.symm, h.2.symm⟩

theorem samePfx_trans {a b c : List Nat} (h1 : samePfx a b = true)
    (h2 : samePfx b c = true) : samePfx a c = true := by
  rw [samePfx_iff] at h1 h2 ⊢
  exact ⟨h1.1.trans h2.1, h1.2.trans h2.2⟩

theorem cjkwfE_iff (e : Entry) :
    cjkwfE e = true ↔
      e.word.length = 4 ∧ is_big5word (e.word.headD 0) = true ∧ ∀ b ∈ e.word, b ≠ 0 := by
  simp [cjkwfE, Bool.and_eq_true, List.all_eq_true]
  tauto

theorem cjk_is_big5 {e : Entry} (h : cjkwfE e = true) :
    is_big5 (e.word.headD 0) = true := by
  rw [cjkwfE_iff] at h
  have h2 := h.2.1
  simp only [is_big5word, decide_eq_true_eq] at h2
  simp only [is_big5, decide_eq_true_eq]
  omega

theorem ascii_not_big5 {e : Entry} (h : asciiwfE e = true) :
    is_big5 (e.word.headD 0) = false := by
  simp only [asciiwfE, Bool.and_eq_true, decide_eq_true_eq] at h
  simpa using h.2

theorem take2_eq (w : List Nat) (h : 2 ≤ w.length) :
    w.take 2 = [w.headD 0, w.getD 1 0] := by
  cases w with
  | nil => simp at h
  | cons a as =>
    cases as with
    | nil => simp at h
    | cons b bs => simp [List.getD]

theorem cstrOf_all (xs : List Nat) (h : ∀ b ∈ xs, b ≠ 0) : cstrOf xs = xs := by
  induction xs with
  | nil => rfl
  | cons a as ih =>
    unfold cstrOf
    rw [List.takeWhile_cons_of_pos (by simpa using h a (List.mem_cons_self a as))]
    unfold cstrOf at ih
    rw [ih (fun b hb => h b (List.mem_cons_of_mem a hb))]

theorem headD_mem (g : List Entry) (d : Entry) (h : g ≠ []) : g.headD d ∈ g := by
  cases g with
  | nil => exact absurd rfl h
  | cons e es => exact List.mem_cons_self e es

theorem getLastD_mem (g : List Entry) (d : Entry) (h : g ≠ []) : g.getLastD d ∈ g := by
  induction g with
  | nil => exact absurd rfl h
  | cons e es ih =>
    cases es with
    | nil => simp
    | cons f fs =>
      rw [List.getLastD_cons]
      exact List.mem_cons_of_mem e (ih (by simp))

theorem headD_append_left (g : List Entry) (ys : List Entry) (d : Entry) (h : g ≠ []) :
    (g ++ ys).headD d = g.headD d := by
  cases g with
  | nil => exact absurd rfl h
  | cons e es => rfl

theorem getLastD_concat (g : List Entry) (e d : Entry) :
    (g ++ [e]).getLastD d = e := by
  induction g with
  | nil => rfl
  | cons f fs ih =>
    rw [List.cons_append, List.getLastD_cons]
    cases fs with
    | nil => rfl
    | cons a as => exact ih

theorem triples_append_one (g : List Entry) (e : Entry) :
    triples (g ++ [e]) = triples g ++ (w2 e.word ++ [capFreq e.freq]) := by
  simp [triples]

theorem triples_len (g : List Entry) : (triples g).length = 3 * g.length := by
  induction g with
  | nil => simp [triples]
  | cons e g ih =>
    have hc : triples (e :: g) = (w2 e.word ++ [capFreq e.freq]) ++ triples g := by
      simp [triples]
    rw [hc, List.length_append, ih]
    simp [w2]
    omega

theorem headD_mem_word (w : List Nat) (h : 0 < w.length) : w.headD 0 ∈ w := by
  cases w with
  | nil => simp at h
  | cons a as => simp

theorem getD1_mem_word (w : List Nat) (h : 2 ≤ w.length) : w.getD 1 0 ∈ w := by
  cases w with
  | nil => simp at h
  | cons a as =>
    cases as with
    | nil => simp at h
    | cons b bs => simp [List.getD]

/-- The key the emitter computes for a group member: with well-formed CJK
words, two same-prefix words have the same first-two-bytes key, and the
C-string read of that key is the two bytes themselves. -/
theorem key_of_samePfx {a b : Entry} (ha : cjkwfE a = true) (hb : cjkwfE b = true)
    (hp : samePfx a.word b.word = true) :
    cstrOf (a.word.take 2) = b.word.take 2 := by
  rw [cjkwfE_iff] at ha hb
  rw [take2_eq a.word (by omega), take2_eq b.word (by omega)]
  rw [samePfx_iff] at hp
  rw [hp.1, hp.2]
  apply cstrOf_all
  intro x hx
  rcases List.mem_cons.mp hx with h | h
  · rw [h]
    exact hb.2.2 _ (headD_mem_word b.word (by omega))
  · rcases List.mem_cons.mp h with h' | h'
    · rw [h']
      exact hb.2.2 _ (getD1_mem_word b.word (by omega))
    · simp at h'

theorem cb_delim_big5_some_same (s : DState) (en : Entry) (lw : List Nat)
    (hb : is_big5 (en.word.headD 0) = true) (hl : s.last = some lw)
    (hp : samePfx en.word lw = true) :
    cb_delim s en = { s with val := s.val ++ w2 en.word ++ [capFreq en.freq],
                             last := some en.word } := by
  unfold cb_delim
  rw [if_pos hb, hl]
  show (if samePfx en.word lw = true then _ else _) = _
  rw [if_pos hp]

theorem cb_delim_big5_some_diff (s : DState) (en : Entry) (lw : List Nat)
    (hb : is_big5 (en.word.headD 0) = true) (hl : s.last = some lw)
    (hp : samePfx en.word lw = false) :
    cb_delim s en = { s with out := s.out ++ [⟨s.key, s.val, s.val.length⟩],
                             key := cstrOf (en.word.take 2),
                             val := s.dlm ++ w2 en.word ++ [capFreq en.freq],
                             last := some en.word } := by
  unfold cb_delim
  rw [if_pos hb, hl]
  show (if samePfx en.word lw = true then _ else _) = _
  rw [if_neg (by rw [hp]; simp)]

theorem cb_delim_big5_none (s : DState) (en : Entry)
    (hb : is_big5 (en.word.headD 0) = true) (hl : s.last = none) :
    cb_delim s en = { s with key := cstrOf (en.word.take 2),
                             val := s.dlm ++ w2 en.word ++ [capFreq en.freq],
                             last := some en.word } := by
  unfold cb_delim
  rw [if_pos hb, hl]

theorem cb_delim_ascii (s : DState) (en : Entry)
    (hb : is_big5 (en.word.headD 0) = false) :
    cb_delim s en = { s with val := s.dlm ++ [0x20, 0x20, capFreq en.freq],
                             out := s.out ++
                               [⟨en.word, s.dlm ++ [0x20, 0x20, capFreq en.freq],
                                 (s.dlm ++ [0x20, 0x20, capFreq en.freq]).length⟩] } := by
  unfold cb_delim
  rw [if_neg (by rw [hb]; simp)]

theorem delimTravFrom_cons (s : DState) (e : Entry) (es : List Entry) :
    delimTravFrom s (e :: es) = delimTravFrom (cb_delim s e) es := rfl

theorem delimTravFrom_append (s : DState) (xs ys : List Entry) :
    delimTravFrom s (xs ++ ys) = delimTravFrom (xs.foldl cb_delim s) ys := by
  simp [delimTravFrom, List.foldl_append]

theorem samePfx_refl (w : List Nat) : samePfx w w = true := by
  rw [samePfx_iff]
  exact ⟨rfl, rfl⟩

/-- The delimited traversal with an open group: starting from a state whose
last/key/val describe the open group g, the remaining CJK entries produce
exactly one callback record per maximal same-prefix group, the open group
merged with its same-prefix continuation, and the final still-open group
flushed by the post-traversal callback. -/
theorem delimTrav_open (d : List Nat) (hd : d.length = 4) :
    ∀ (es : List Entry) (s : DState) (g : List Entry),
      s.dlm = d → g ≠ [] →
      (∀ e ∈ g, cjkwfE e = true) → (∀ e ∈ es, cjkwfE e = true) →
      (∀ e ∈ g, samePfx e.word ((g.headD ⟨[], 0⟩).word) = true) →
      s.last = some ((g.getLastD ⟨[], 0⟩).word) →
      s.val = d ++ triples g →
      s.key = (g.headD ⟨[], 0⟩).word.take 2 →
      (delimTravFrom s es).2 = s.out ++ (groupsC g es).map (groupRec d) := by
  intro es
  induction es with
  | nil =>
    intro s g hdlm hg hwg _ hch hlast hval hkey
    simp only [delimTravFrom, List.foldl_nil]
    rw [hlast]
    simp only [groupsC, List.map_cons, List.map_nil]
    have hlm : g.getLastD ⟨[], 0⟩ ∈ g := getLastD_mem g _ hg
    have hhm : g.headD ⟨[], 0⟩ ∈ g := headD_mem g _ hg
    have hkeyeq : cstrOf (((g.getLastD ⟨[], 0⟩).word).take 2) =
        (g.headD ⟨[], 0⟩).word.take 2 :=
      key_of_samePfx (hwg _ hlm) (hwg _ hhm) (hch _ hlm)
    rw [hkeyeq, hval]
    have hlen : (d ++ triples g).length = 4 + 3 * g.length := by
      rw [List.length_append, triples_len, hd]
    rw [hlen]
    rfl
  | cons e es ih =>
    intro s g hdlm hg hwg hwes hch hlast hval hkey
    have hwe : cjkwfE e = true := hwes e (List.mem_cons_self e es)
    have hb : is_big5 (e.word.headD 0) = true := cjk_is_big5 hwe
    have hlm : g.getLastD ⟨[], 0⟩ ∈ g := getLastD_mem g _ hg
    have hhm : g.headD ⟨[], 0⟩ ∈ g := headD_mem g _ hg
    rw [delimTravFrom_cons]
    by_cases hsp : samePfx e.word ((g.headD ⟨[], 0⟩).word) = true
    · have hsp' : samePfx e.word ((g.getLastD ⟨[], 0⟩).word) = true :=
        samePfx_trans hsp (samePfx_symm (hch _ hlm))
      rw [cb_delim_big5_some_same s e _ hb hlast hsp']
      rw [ih { key := s.key, val := s.val ++ w2 e.word ++ [capFreq e.freq],
               dlm := s.dlm, last := some e.word, out := s.out }
        (g ++ [e]) hdlm (by simp)
        (by
          intro x hx
          rcases List.mem_append.mp hx with h | h
          · exact hwg x h
          · rw [List.mem_singleton.mp h]
            exact hwe)
        (fun x hx => hwes x (List.mem_cons_of_mem e hx))
        (by
          intro x hx
          rw [headD_append_left g [e] _ hg]
          rcases List.mem_append.mp hx with h | h
          · exact hch x h
          · rw [List.mem_singleton.mp h]
            exact hsp)
        (by
          show some e.word = some (((g ++ [e]).getLastD ⟨[], 0⟩).word)
          rw [getLastD_concat])
        (by
          show s.val ++ w2 e.word ++ [capFreq e.freq] = d ++ triples (g ++ [e])
          rw [hval, triples_append_one]
          simp)
        (by
          show s.key = ((g ++ [e]).headD ⟨[], 0⟩).word.take 2
          rw [hkey, headD_append_left g [e] _ hg])]
      have hgc : groupsC g (e :: es) = groupsC (g ++ [e]) es := by
        show (if samePfx e.word ((g.headD ⟨[], 0⟩).word) = true
          then groupsC (g ++ [e]) es else g :: groupsC [e] es) = groupsC (g ++ [e]) es
        rw [if_pos hsp]
      rw [hgc]
    · have hsp'' : samePfx e.word ((g.getLastD ⟨[], 0⟩).word) = false := by
        rw [Bool.eq_false_iff]
        intro hc
        exact hsp (samePfx_trans hc (hch _ hlm))
      rw [cb_delim_big5_some_diff s e _ hb hlast hsp'']
      rw [ih { key := cstrOf (e.word.take 2),
               val := s.dlm ++ w2 e.word ++ [capFreq e.freq], dlm := s.dlm,
               last := some e.word,
               out := s.out ++ [⟨s.key, s.val, s.val.length⟩] }
        [e] hdlm (by simp)
        (by
          intro x hx
          rw [List.mem_singleton.mp hx]
          exact hwe)
        (fun x hx => hwes x (List.mem_cons_of_mem e hx))
        (by
          intro x hx
          rw [List.mem_singleton.mp hx]
          exact samePfx_refl e.word)
        rfl
        (by
          show s.dlm ++ w2 e.word ++ [capFreq e.freq] = d ++ triples [e]
          rw [hdlm]
          simp [triples, w2])
        (by
          show cstrOf (e.word.take 2) = (([e].headD ⟨[], 0⟩).word).take 2
          exact key_of_samePfx hwe hwe (samePfx_refl e.word))]
      have hgc : groupsC g (e :: es) = g :: groupsC [e] es := by
        show (if samePfx e.word ((g.headD ⟨[], 0⟩).word) = true
          then groupsC (g ++ [e]) es else g :: groupsC [e] es) = g :: groupsC [e] es
        rw [if_neg hsp]
      rw [hgc]
      have hrec : (⟨s.key, s.val, s.val.length⟩ : Rec) = groupRec d g := by
        rw [hkey, hval]
        have hlen : (d ++ triples g).length = 4 + 3 * g.length := by
          rw [List.length_append, triples_len, hd]
        rw [hlen]
        rfl
      show s.out ++ [(⟨s.key, s.val, s.val.length⟩ : Rec)] ++
          (groupsC [e] es).map (groupRec d) =
        s.out ++ (g :: groupsC [e] es).map (groupRec d)
      rw [List.map_cons, hrec]
      simp

/-- Folding cb_delim over ASCII entries: each produces one immediate record
and leaves key, delimiter and the last pointer untouched. -/
theorem ascii_fold : ∀ (xs : List Entry) (s : DState),
    (∀ e ∈ xs, asciiwfE e = true) → s.dlm.length = 4 →
    (xs.foldl cb_delim s).last = s.last ∧ (xs.foldl cb_delim s).dlm = s.dlm ∧
      (xs.foldl cb_delim s).key = s.key ∧
      (xs.foldl cb_delim s).out = s.out ++ xs.map (asciiRec s.dlm) := by
  intro xs
  induction xs with
  | nil =>
    intro s _ _
    simp
  | cons e xs ih =>
    intro s hwf hd
    have he : asciiwfE e = true := hwf e (List.mem_cons_self e xs)
    have hb : is_big5 (e.word.headD 0) = false := ascii_not_big5 he
    rw [List.foldl_cons, cb_delim_ascii s e hb]
    have h := ih { s with val := s.dlm ++ [0x20, 0x20, capFreq e.freq],
                          out := s.out ++
                            [⟨e.word, s.dlm ++ [0x20, 0x20, capFreq e.freq],
                              (s.dlm ++ [0x20, 0x20, capFreq e.freq]).length⟩] }
      (fun x hx => hwf x (List.mem_cons_of_mem e hx)) hd
    refine ⟨h.1, h.2.1, h.2.2.1, ?_⟩
    rw [h.2.2.2]
    have hrec : (⟨e.word, s.dlm ++ [0x20, 0x20, capFreq e.freq],
        (s.dlm ++ [0x20, 0x20, capFreq e.freq]).length⟩ : Rec) = asciiRec s.dlm e := by
      unfold asciiRec
      have : (s.dlm ++ [0x20, 0x20, capFreq e.freq]).length = 7 := by
        rw [List.length_append, hd]
        rfl
      rw [this]
    rw [hrec]
    simp

/-- C2: over any in-order traversal (ASCII entries first, then CJK entries,
as strcmp order places them), the delimited emitter produces, for each
maximal run of consecutive CJK entries sharing their first two word bytes,
exactly one callback record whose key is the shared 2-byte prefix and whose
value is the 4-byte delimiter followed by one (2-byte suffix, 1 capped
frequency byte) triple per entry of the run, with the record length
4 + 3 * (run size); the final still-open group is flushed by the
post-traversal callback.  ASCII entries each yield their own immediate
record beforehand. -/
theorem delim_emitter_groups (s0 : DState) (xs ys : List Entry)
    (h0 : s0.last = none) (hd : s0.dlm.length = 4)
    (hxs : ∀ e ∈ xs, asciiwfE e = true) (hys : ∀ e ∈ ys, cjkwfE e = true) :
    (delimTravFrom s0 (xs ++ ys)).2 =
      s0.out ++ xs.map (asciiRec s0.dlm) ++ (groups ys).map (groupRec s0.dlm) := by
  rw [delimTravFrom_append]
  have hfold := ascii_fold xs s0 hxs hd
  cases ys with
  | nil =>
    simp only [delimTravFrom, List.foldl_nil]
    rw [hfold.1, h0, hfold.2.2.2]
    simp [groups]
  | cons y ys =>
    have hwy : cjkwfE y = true := hys y (List.mem_cons_self y ys)
    have hby : is_big5 (y.word.headD 0) = true := cjk_is_big5 hwy
    rw [delimTravFrom_cons, cb_delim_big5_none _ y hby (by rw [hfold.1, h0])]
    rw [delimTrav_open s0.dlm hd ys
      { key := cstrOf (y.word.take 2),
        val := (xs.foldl cb_delim s0).dlm ++ w2 y.word ++ [capFreq y.freq],
        dlm := (xs.foldl cb_delim s0).dlm,
        last := some y.word,
        out := (xs.foldl cb_delim s0).out } [y]
      (by show (xs.foldl cb_delim s0).dlm = s0.dlm; rw [hfold.2.1]) (by simp)
      (by
        intro x hx
        rw [List.mem_singleton.mp hx]
        exact hwy)
      (fun x hx => hys x (List.mem_cons_of_mem y hx))
      (by
        intro x hx
        rw [List.mem_singleton.mp hx]
        exact samePfx_refl y.word)
      rfl
      (by
        show (xs.foldl cb_delim s0).dlm ++ w2 y.word ++ [capFreq y.freq] =
          s0.dlm ++ triples [y]
        rw [hfold.2.1]
        simp [triples, w2])
      (by
        show cstrOf (y.word.take 2) = (([y].headD ⟨[], 0⟩).word).take 2
        exact key_of_samePfx hwy hwy (samePfx_refl y.word))]
    rw [hfold.2.2.2]
    show s0.out ++ xs.map (asciiRec s0.dlm) ++
        (groupsC [y] ys).map (groupRec s0.dlm) =
      s0.out ++ xs.map (asciiRec s0.dlm) ++ (groups (y :: ys)).map (groupRec s0.dlm)
    rfl

/-- Witness for C2: a traversal with one ASCII entry and three CJK entries,
the first two sharing the prefix 0xa4 0x40. -/
theorem delim_emitter_groups_witness :
    ((⟨[], [], [0x3f, 0x3f, 0x3f, 0x3f], none, []⟩ : DState).last = none ∧
      ([0x3f, 0x3f, 0x3f, 0x3f] : List Nat).length = 4 ∧
      (∀ e ∈ [(⟨[0x68, 0x69], 3⟩ : Entry)], asciiwfE e = true) ∧
      (∀ e ∈ [(⟨[0xa4, 0x40, 0xa4, 0x41], 1⟩ : Entry),
              ⟨[0xa4, 0x40, 0xa4, 0x42], 200⟩, ⟨[0xa5, 0x41, 0x21, 0x21], 2⟩],
        cjkwfE e = true)) ∧
    (delimTravFrom ⟨[], [], [0x3f, 0x3f, 0x3f, 0x3f], none, []⟩
        ([⟨[0x68, 0x69], 3⟩] ++
          [⟨[0xa4, 0x40, 0xa4, 0x41], 1⟩, ⟨[0xa4, 0x40, 0xa4, 0x42], 200⟩,
            ⟨[0xa5, 0x41, 0x21, 0x21], 2⟩])).2 =
      [] ++ [(⟨[0x68, 0x69], 3⟩ : Entry)].map (asciiRec [0x3f, 0x3f, 0x3f, 0x3f]) ++
        (groups [⟨[0xa4, 0x40, 0xa4, 0x41], 1⟩, ⟨[0xa4, 0x40, 0xa4, 0x42], 200⟩,
          ⟨[0xa5, 0x41, 0x21, 0x21], 2⟩]).map (groupRec [0x3f, 0x3f, 0x3f, 0x3f]) :=
  ⟨⟨rfl, by decide, by decide, by decide⟩,
    delim_emitter_groups _ _ _ rfl (by decide) (by decide) (by decide)⟩


theorem lexLt_headD {a b : List Nat} (h : lexLt a b = true) :
    a.headD 0 ≤ b.headD 0 := by
  cases a with
  | nil => simp
  | cons x xs =>
    cases b with
    | nil => simp [lexLt] at h
    | cons y ys =>
      simp only [lexLt] at h
      simp only [List.headD]
      by_cases hxy : x < y
      · omega
      · by_cases hyx : y < x
        · rw [if_neg hxy, if_pos hyx] at h
          simp at h
        · omega

theorem ascii_fold_last_none : ∀ (xs : List Entry) (s : DState),
    (∀ x ∈ xs, is_big5 (x.word.headD 0) = false) → s.last = none →
    (xs.foldl cb_delim s).last = none := by
  intro xs
  induction xs with
  | nil =>
    intro s _ h0
    exact h0
  | cons e xs ih =>
    intro s hwf h0
    rw [List.foldl_cons, cb_delim_ascii s e (hwf e (List.mem_cons_self e xs))]
    exact ih _ (fun x hx => hwf x (List.mem_cons_of_mem e hx)) h0

/-- C10: in a byte-lexicographically sorted traversal, every entry visited
before an ASCII entry (first byte not a lead byte) is itself ASCII — all
ASCII tokens precede all CJK tokens, since CJK first bytes exceed 0xa0 —
and consequently when the delimited emitter reaches an ASCII entry the last
pointer is still unset: no same-prefix group is open, so the ASCII branch's
overwrite of the shared val buffer destroys no pending group data. -/
theorem ascii_before_cjk (entries xs ys : List Entry) (e : Entry) (s0 : DState)
    (hs : SortedE entries) (hsplit : entries = xs ++ e :: ys)
    (he : is_big5 (e.word.headD 0) = false) (h0 : s0.last = none) :
    (∀ x ∈ xs, is_big5 (x.word.headD 0) = false) ∧
      (xs.foldl cb_delim s0).last = none := by
  subst hsplit
  have hpw := (List.pairwise_append.mp hs).2.2
  have hxs : ∀ x ∈ xs, is_big5 (x.word.headD 0) = false := by
    intro x hx
    have hlt : lexLt x.word e.word = true := hpw x hx e (List.mem_cons_self e ys)
    have hle := lexLt_headD hlt
    simp only [is_big5, decide_eq_true_eq] at he ⊢
    simp only [decide_eq_false_iff_not] at he ⊢
    omega
  exact ⟨hxs, ascii_fold_last_none xs s0 hxs h0⟩

/-- Witness for C10: a sorted three-entry table, split at its second (ASCII)
entry. -/
theorem ascii_before_cjk_witness :
    (SortedE [⟨[0x61, 0x62], 1⟩, ⟨[0x68, 0x69], 3⟩, ⟨[0xa4, 0x40, 0xa4, 0x41], 2⟩] ∧
      ([(⟨[0x61, 0x62], 1⟩ : Entry), ⟨[0x68, 0x69], 3⟩, ⟨[0xa4, 0x40, 0xa4, 0x41], 2⟩] =
        [⟨[0x61, 0x62], 1⟩] ++ ⟨[0x68, 0x69], 3⟩ :: [⟨[0xa4, 0x40, 0xa4, 0x41], 2⟩]) ∧
      is_big5 ((⟨[0x68, 0x69], 3⟩ : Entry).word.headD 0) = false ∧
      (⟨[], [], [0x3f, 0x3f, 0x3f, 0x3f], none, []⟩ : DState).last = none) ∧
    ((∀ x ∈ [(⟨[0x61, 0x62], 1⟩ : Entry)], is_big5 (x.word.headD 0) = false) ∧
      ([(⟨[0x61, 0x62], 1⟩ : Entry)].foldl cb_delim
        ⟨[], [], [0x3f, 0x3f, 0x3f, 0x3f], none, []⟩).last = none) :=
  ⟨⟨by decide, rfl, by decide, rfl⟩,
    ascii_before_cjk
      [⟨[0x61, 0x62], 1⟩, ⟨[0x68, 0x69], 3⟩, ⟨[0xa4, 0x40, 0xa4, 0x41], 2⟩]
      [⟨[0x61, 0x62], 1⟩] [⟨[0xa4, 0x40, 0xa4, 0x41], 2⟩] ⟨[0x68, 0x69], 3⟩
      ⟨[], [], [0x3f, 0x3f, 0x3f, 0x3f], none, []⟩ (by decide) rfl (by decide) rfl⟩

/-- Two emitter states that agree on delimiter, callback log and last
pointer, and on key/val whenever a group is open, stay in lock-step under
cb_delim and produce the same callback sequences: the leftover key/val
scratch contents from a previous call never reach the output. -/
theorem delim_pair : ∀ (entries : List Entry) (s t : DState),
    s.dlm = t.dlm → s.out = t.out → s.last = t.last →
    (∀ lw, s.last = some lw → s.key = t.key ∧ s.val = t.val) →
    (delimTravFrom s entries).2 = (delimTravFrom t entries).2 := by
  intro entries
  induction entries with
  | nil =>
    intro s t hdlm hout hlast hkv
    simp only [delimTravFrom, List.foldl_nil]
    cases hsl : s.last with
    | none =>
      rw [hlast] at hsl
      rw [hsl, hout]
    | some lw =>
      have hkv' := hkv lw hsl
      rw [hlast] at hsl
      rw [hsl, hout, (hkv lw (by rw [hlast]; exact hsl)).2]
  | cons e es ih =>
    intro s t hdlm hout hlast hkv
    rw [delimTravFrom_cons, delimTravFrom_cons]
    by_cases hb : is_big5 (e.word.headD 0) = true
    · cases hsl : s.last with
      | none =>
        have htl : t.last = none := by rw [← hlast]; exact hsl
        rw [cb_delim_big5_none s e hb hsl, cb_delim_big5_none t e hb htl]
        exact ih _ _ hdlm hout rfl
          (fun lw _ => ⟨rfl, by
            show s.dlm ++ w2 e.word ++ [capFreq e.freq] =
              t.dlm ++ w2 e.word ++ [capFreq e.freq]
            rw [hdlm]⟩)
      | some lw =>
        have htl : t.last = some lw := by rw [← hlast]; exact hsl
        have hkv' := hkv lw hsl
        by_cases hp : samePfx e.word lw = true
        · rw [cb_delim_big5_some_same s e lw hb hsl hp,
            cb_delim_big5_some_same t e lw hb htl hp]
          exact ih _ _ hdlm hout rfl
            (fun lw' _ => ⟨hkv'.1, by
              show s.val ++ w2 e.word ++ [capFreq e.freq] =
                t.val ++ w2 e.word ++ [capFreq e.freq]
              rw [hkv'.2]⟩)
        · rw [cb_delim_big5_some_diff s e lw hb hsl (by simpa using hp),
            cb_delim_big5_some_diff t e lw hb htl (by simpa using hp)]
          exact ih _ _ hdlm
            (by
              show s.out ++ [⟨s.key, s.val, s.val.length⟩] =
                t.out ++ [⟨t.key, t.val, t.val.length⟩]
              rw [hout, hkv'.1, hkv'.2])
            rfl
            (fun lw' _ => ⟨rfl, by
              show s.dlm ++ w2 e.word ++ [capFreq e.freq] =
                t.dlm ++ w2 e.word ++ [capFreq e.freq]
              rw [hdlm]⟩)
    · have hb' : is_big5 (e.word.headD 0) = false := by simpa using hb
      rw [cb_delim_ascii s e hb', cb_delim_ascii t e hb']
      exact ih _ _ hdlm
        (by
          show s.out ++ [⟨e.word, s.dlm ++ [0x20, 0x20, capFreq e.freq],
              (s.dlm ++ [0x20, 0x20, capFreq e.freq]).length⟩] =
            t.out ++ [⟨e.word, t.dlm ++ [0x20, 0x20, capFreq e.freq],
              (t.dlm ++ [0x20, 0x20, capFreq e.freq]).length⟩]
          rw [hout, hdlm])
        hlast
        (fun lw hl => ⟨(hkv lw hl).1, by
          show s.dlm ++ [0x20, 0x20, capFreq e.freq] =
            t.dlm ++ [0x20, 0x20, capFreq e.freq]
          rw [hdlm]⟩)

theorem parse_delim_out_congr (g g' : Globals) (buf seed : List Nat)
    (hq : g.query = g'.query) :
    (parse_delim g buf seed).2 = (parse_delim g' buf seed).2 := by
  show (delimTravFrom { key := g.key, val := g.val, dlm := copy4 seed,
                        last := none, out := [] }
      (buildTable (extract_words g.query buf))).2 =
    (delimTravFrom { key := g'.key, val := g'.val, dlm := copy4 seed,
                     last := none, out := [] }
      (buildTable (extract_words g'.query buf))).2
  rw [hq]
  exact delim_pair _ _ _ rfl rfl rfl (fun lw hl => absurd hl (by simp))

/-- C7 counterexample: two parse_delim calls with byte-identical arguments
(buffer and seed) but different pre-existing values of the process-wide
query global produce different callback sequences — so the delimited driver
does not set the query-mode flag from any caller-supplied configuration
input; it has no such parameter and just reads whatever the global holds. -/
theorem parse_delim_query_global_dependence :
    (parse_delim ⟨[0x3f, 0x3f, 0x3f, 0x3f], false, [], []⟩
        [0xa4, 0x40, 0xa4, 0x41] [1, 2, 3, 4]).2 ≠
      (parse_delim ⟨[0x3f, 0x3f, 0x3f, 0x3f], true, [], []⟩
        [0xa4, 0x40, 0xa4, 0x41] [1, 2, 3, 4]).2 := by decide

/-- C7 (amended): every parse_delim call copies the 4-byte delimiter from
its caller-supplied seed into the delimiter global before the ordered
traversal, and its output is independent of the other leftover globals
(key, val, delimiter); but the query-mode flag is not set by the driver: it
is read as-is from the process global, which parse_delim leaves unchanged. -/
theorem parse_delim_sets_delim_only (g g' : Globals) (buf seed : List Nat)
    (hq : g.query = g'.query) :
    (parse_delim g buf seed).2 = (parse_delim g' buf seed).2 ∧
    (parse_delim g buf seed).1.dlm = copy4 seed ∧
    (parse_delim g buf seed).1.query = g.query :=
  ⟨parse_delim_out_congr g g' buf seed hq, rfl, rfl⟩

/-- Witness for the amended C7: two calls differing in every global except
the query flag give the same output; the delimiter lands from the seed. -/
theorem parse_delim_sets_delim_only_witness :
    ((⟨[0x3f, 0x3f, 0x3f, 0x3f], false, [], []⟩ : Globals).query =
      (⟨[9, 9, 9, 9], false, [1], [2, 3]⟩ : Globals).query) ∧
    ((parse_delim ⟨[0x3f, 0x3f, 0x3f, 0x3f], false, [], []⟩
        [0xa4, 0x40, 0xa4, 0x41] [1, 2, 3, 4]).2 =
      (parse_delim ⟨[9, 9, 9, 9], false, [1], [2, 3]⟩
        [0xa4, 0x40, 0xa4, 0x41] [1, 2, 3, 4]).2 ∧
     (parse_delim ⟨[0x3f, 0x3f, 0x3f, 0x3f], false, [], []⟩
        [0xa4, 0x40, 0xa4, 0x41] [1, 2, 3, 4]).1.dlm = copy4 [1, 2, 3, 4] ∧
     (parse_delim ⟨[0x3f, 0x3f, 0x3f, 0x3f], false, [], []⟩
        [0xa4, 0x40, 0xa4, 0x41] [1, 2, 3, 4]).1.query =
       (⟨[0x3f, 0x3f, 0x3f, 0x3f], false, [], []⟩ : Globals).query) :=
  ⟨rfl, parse_delim_sets_delim_only ⟨[0x3f, 0x3f, 0x3f, 0x3f], false, [], []⟩
    ⟨[9, 9, 9, 9], false, [1], [2, 3]⟩ [0xa4, 0x40, 0xa4, 0x41] [1, 2, 3, 4] rfl⟩

/-- C9: running the delimited driver twice on identical input with the same
seed produces byte-identical callback sequences: the state the first call
leaves in the process globals (delimiter, scratch key/val; the query flag
is preserved) does not alter the second call's output. -/
theorem parse_delim_idempotent (g : Globals) (buf seed : List Nat) :
    (parse_delim g buf seed).2 =
      (parse_delim (parse_delim g buf seed).1 buf seed).2 :=
  parse_delim_out_congr g (parse_delim g buf seed).1 buf seed rfl

-- ## Item-level scanner lemmas

theorem alnumBytes_render : ∀ (zs : List Item), (∀ it ∈ zs, it.wfb = true) →
    (render zs).takeWhile (fun b => is_alnum b) = alnumBytes zs := by
  intro zs
  induction zs with
  | nil =>
    intro _
    simp [render, alnumBytes]
  | cons it rest ih =>
    intro hwf
    rw [render_cons]
    cases it with
    | ascii b =>
      show List.takeWhile (fun b => is_alnum b) (b :: render rest) = _
      by_cases hb : is_alnum b = true
      · rw [List.takeWhile_cons_of_pos hb,
          ih (fun x hx => hwf x (List.mem_cons_of_mem _ hx))]
        show _ = if is_alnum b = true then b :: alnumBytes rest else []
        rw [if_pos hb]
      · rw [List.takeWhile_cons_of_neg hb]
        show _ = if is_alnum b = true then b :: alnumBytes rest else []
        rw [if_neg hb]
    | dbyte l t =>
      have hl := (wfb_dbyte (hwf _ (List.mem_cons_self _ _))).1
      show List.takeWhile (fun b => is_alnum b) (l :: t :: render rest) = []
      rw [List.takeWhile_cons_of_neg (by simp [not_alnum_of_lead hl])]

theorem alnumDrop_render : ∀ (zs : List Item),
    render zs = alnumBytes zs ++ render (alnumDrop zs) := by
  intro zs
  induction zs with
  | nil => rfl
  | cons it rest ih =>
    cases it with
    | ascii b =>
      by_cases hb : is_alnum b = true
      · rw [render_cons]
        show [b] ++ render rest =
          (if is_alnum b = true then b :: alnumBytes rest else []) ++
            render (if is_alnum b = true then alnumDrop rest else .ascii b :: rest)
        rw [if_pos hb, if_pos hb, ih]
        rfl
      · show render (Item.ascii b :: rest) =
          (if is_alnum b = true then b :: alnumBytes rest else []) ++
            render (if is_alnum b = true then alnumDrop rest else .ascii b :: rest)
        rw [if_neg hb, if_neg hb]
        rfl
    | dbyte l t => rfl

theorem ideoRun_render : ∀ (zs : List Item),
    render zs = flatC (ideoRun zs) ++ render (ideoDrop zs) := by
  intro zs
  induction zs with
  | nil => rfl
  | cons it rest ih =>
    cases it with
    | ascii b => rfl
    | dbyte l t =>
      by_cases hl : is_big5word l = true
      · rw [render_cons]
        show [l, t] ++ render rest =
          flatC (if is_big5word l = true then (l, t) :: ideoRun rest else []) ++
            render (if is_big5word l = true then ideoDrop rest else .dbyte l t :: rest)
        rw [if_pos hl, if_pos hl, ih]
        show [l, t] ++ (flatC (ideoRun rest) ++ render (ideoDrop rest)) =
          ([l, t] ++ flatC (ideoRun rest)) ++ render (ideoDrop rest)
        rw [List.append_assoc]
      · show render (Item.dbyte l t :: rest) =
          flatC (if is_big5word l = true then (l, t) :: ideoRun rest else []) ++
            render (if is_big5word l = true then ideoDrop rest else .dbyte l t :: rest)
        rw [if_neg hl, if_neg hl]
        rfl

theorem flatC_length (cs : List (Nat × Nat)) : (flatC cs).length = 2 * cs.length := by
  induction cs with
  | nil => rfl
  | cons c cs ih =>
    show ([c.1, c.2] ++ flatC cs).length = 2 * (cs.length + 1)
    rw [List.length_append, ih]
    simp
    omega

theorem ideoHead_eq (zs : List Item) (hwf : ∀ it ∈ zs, it.wfb = true) :
    is_big5word (headByteI zs) = ideoHead zs := by
  cases zs with
  | nil => rfl
  | cons it rest =>
    cases it with
    | ascii b =>
      have hb := wfb_ascii (hwf _ (List.mem_cons_self _ _))
      show is_big5word b = false
      simp only [is_big5word, decide_eq_false_iff_not]
      omega
    | dbyte l t => rfl

theorem ideoRun_not_head (zs : List Item) (h : ideoHead zs = false) : ideoRun zs = [] := by
  cases zs with
  | nil => rfl
  | cons it rest =>
    cases it with
    | ascii b => rfl
    | dbyte l t =>
      have hl : is_big5word l = false := by simpa [ideoHead] using h
      show (if is_big5word l = true then (l, t) :: ideoRun rest else []) = []
      rw [if_neg (by rw [hl]; simp)]

theorem ideoDrop_not_head (zs : List Item) (h : ideoHead zs = false) : ideoDrop zs = zs := by
  cases zs with
  | nil => rfl
  | cons it rest =>
    cases it with
    | ascii b => rfl
    | dbyte l t =>
      have hl : is_big5word l = false := by simpa [ideoHead] using h
      show (if is_big5word l = true then ideoDrop rest else .dbyte l t :: rest) = _
      rw [if_neg (by rw [hl]; simp)]

theorem ideoRun_ideo : ∀ (zs : List Item) (c : Nat × Nat), c ∈ ideoRun zs →
    is_big5word c.1 = true := by
  intro zs
  induction zs with
  | nil =>
    intro c hc
    simp [ideoRun] at hc
  | cons it rest ih =>
    intro c hc
    cases it with
    | ascii b => simp [ideoRun] at hc
    | dbyte l t =>
      by_cases hl : is_big5word l = true
      · rw [show ideoRun (Item.dbyte l t :: rest) = (l, t) :: ideoRun rest from by
          show (if is_big5word l = true then (l, t) :: ideoRun rest else []) = _
          rw [if_pos hl]] at hc
        rcases List.mem_cons.mp hc with h | h
        · rw [h]
          exact hl
        · exact ih c h
      · rw [show ideoRun (Item.dbyte l t :: rest) = [] from by
          show (if is_big5word l = true then (l, t) :: ideoRun rest else []) = []
          rw [if_neg hl]] at hc
        simp at hc

theorem ideoRun_trail : ∀ (zs : List Item), (∀ it ∈ zs, it.wfb = true) →
    ∀ c ∈ ideoRun zs, c.2 ≠ 0 := by
  intro zs
  induction zs with
  | nil =>
    intro _ c hc
    simp [ideoRun] at hc
  | cons it rest ih =>
    intro hwf c hc
    cases it with
    | ascii b => simp [ideoRun] at hc
    | dbyte l t =>
      have hw := wfb_dbyte (hwf _ (List.mem_cons_self _ _))
      by_cases hl : is_big5word l = true
      · rw [show ideoRun (Item.dbyte l t :: rest) = (l, t) :: ideoRun rest from by
          show (if is_big5word l = true then (l, t) :: ideoRun rest else []) = _
          rw [if_pos hl]] at hc
        rcases List.mem_cons.mp hc with h | h
        · rw [h]
          show t ≠ 0
          omega
        · exact ih (fun x hx => hwf x (List.mem_cons_of_mem _ hx)) c h
      · rw [show ideoRun (Item.dbyte l t :: rest) = [] from by
          show (if is_big5word l = true then (l, t) :: ideoRun rest else []) = []
          rw [if_neg hl]] at hc
        simp at hc

theorem alnumDrop_suffix : ∀ (zs : List Item), ∃ us, us ++ alnumDrop zs = zs := by
  intro zs
  induction zs with
  | nil => exact ⟨[], rfl⟩
  | cons it rest ih =>
    cases it with
    | ascii b =>
      by_cases hb : is_alnum b = true
      · rcases ih with ⟨us, hus⟩
        refine ⟨.ascii b :: us, ?_⟩
        rw [show alnumDrop (Item.ascii b :: rest) = alnumDrop rest from by
          show (if is_alnum b = true then alnumDrop rest else .ascii b :: rest) = _
          rw [if_pos hb]]
        rw [List.cons_append, hus]
      · refine ⟨[], ?_⟩
        rw [show alnumDrop (Item.ascii b :: rest) = .ascii b :: rest from by
          show (if is_alnum b = true then alnumDrop rest else .ascii b :: rest) = _
          rw [if_neg hb]]
        rfl
    | dbyte l t => exact ⟨[], rfl⟩

theorem ideoDrop_suffix : ∀ (zs : List Item), ∃ us, us ++ ideoDrop zs = zs := by
  intro zs
  induction zs with
  | nil => exact ⟨[], rfl⟩
  | cons it rest ih =>
    cases it with
    | ascii b => exact ⟨[], rfl⟩
    | dbyte l t =>
      by_cases hl : is_big5word l = true
      · rcases ih with ⟨us, hus⟩
        refine ⟨.dbyte l t :: us, ?_⟩
        rw [show ideoDrop (Item.dbyte l t :: rest) = ideoDrop rest from by
          show (if is_big5word l = true then ideoDrop rest else .dbyte l t :: rest) = _
          rw [if_pos hl]]
        rw [List.cons_append, hus]
      · refine ⟨[], ?_⟩
        rw [show ideoDrop (Item.dbyte l t :: rest) = .dbyte l t :: rest from by
          show (if is_big5word l = true then ideoDrop rest else .dbyte l t :: rest) = _
          rw [if_neg hl]]
        rfl

theorem mem_alnumDrop {zs : List Item} {x : Item} (h : x ∈ alnumDrop zs) : x ∈ zs := by
  rcases alnumDrop_suffix zs with ⟨us, hus⟩
  rw [← hus]
  exact List.mem_append_right us h

theorem mem_ideoDrop {zs : List Item} {x : Item} (h : x ∈ ideoDrop zs) : x ∈ zs := by
  rcases ideoDrop_suffix zs with ⟨us, hus⟩
  rw [← hus]
  exact List.mem_append_right us h

theorem alnumDrop_len (zs : List Item) : (alnumDrop zs).length ≤ zs.length := by
  rcases alnumDrop_suffix zs with ⟨us, hus⟩
  have h := congrArg List.length hus
  rw [List.length_append] at h
  omega

theorem ideoDrop_len (zs : List Item) : (ideoDrop zs).length ≤ zs.length := by
  rcases ideoDrop_suffix zs with ⟨us, hus⟩
  have h := congrArg List.length hus
  rw [List.length_append] at h
  omega

theorem cstrN_eval (buf : List Nat) (i a b c d : Nat)
    (ha : readByte buf i = a) (hb : readByte buf (i + 1) = b)
    (hc : readByte buf (i + 2) = c) (hd : readByte buf (i + 3) = d)
    (h0 : a ≠ 0) (h1 : b ≠ 0) (h2 : c ≠ 0) (h3 : d ≠ 0) :
    cstrN buf i 4 = [a, b, c, d] := by
  have hr : List.range 4 = [0, 1, 2, 3] := rfl
  unfold cstrN
  rw [hr]
  simp only [List.map_cons, List.map_nil, Nat.add_zero]
  rw [ha, hb, hc, hd]
  rw [List.takeWhile_cons_of_pos (by simpa using h0),
    List.takeWhile_cons_of_pos (by simpa using h1),
    List.takeWhile_cons_of_pos (by simpa using h2),
    List.takeWhile_cons_of_pos (by simpa using h3)]
  rfl

theorem uniTok_eval (buf : List Nat) (i a b : Nat)
    (ha : readByte buf i = a) (hb : readByte buf (i + 1) = b)
    (h0 : a ≠ 0) (h1 : b ≠ 0) :
    uniTokAt buf i = [a, b, 0x21, 0x21] := by
  unfold uniTokAt
  simp only
  rw [ha, hb, if_neg h0, if_neg h1]

/-- Index bookkeeping for walking one character into the flattened run. -/
theorem len_step (X : List Nat) (a b m k : Nat) :
    X.length + 2 * (m + 1) - k = (X ++ [a, b]).length + 2 * m - k := by
  simp only [List.length_append, List.length_cons, List.length_nil]
  omega

theorem readByte_flat_last : ∀ (run : List (Nat × Nat)) (X Y : List Nat), run ≠ [] →
    readByte (X ++ flatC run ++ Y) (X.length + 2 * run.length - 2) =
      (run.getLastD (0, 0)).1 ∧
    readByte (X ++ flatC run ++ Y) (X.length + 2 * run.length - 1) =
      (run.getLastD (0, 0)).2 := by
  intro run
  induction run with
  | nil =>
    intro X Y h
    exact absurd rfl h
  | cons c run' ih =>
    intro X Y _
    cases run' with
    | nil =>
      have hbuf : X ++ flatC [c] ++ Y = X ++ (c.1 :: c.2 :: Y) := by
        show X ++ ([c.1, c.2] ++ []) ++ Y = _
        simp
      constructor
      · rw [show X.length + 2 * ([c] : List (Nat × Nat)).length - 2 = X.length + 0 by simp,
          hbuf, readByte_right]
        rfl
      · rw [show X.length + 2 * ([c] : List (Nat × Nat)).length - 1 = X.length + 1 by simp,
          hbuf, readByte_right]
        rfl
    | cons c2 run'' =>
      have hbuf : X ++ flatC (c :: c2 :: run'') ++ Y =
          (X ++ [c.1, c.2]) ++ flatC (c2 :: run'') ++ Y := by
        show X ++ ([c.1, c.2] ++ flatC (c2 :: run'')) ++ Y = _
        simp
      have h2 : X.length + 2 * (c :: c2 :: run'').length - 2 =
          (X ++ [c.1, c.2]).length + 2 * (c2 :: run'').length - 2 :=
        len_step X c.1 c.2 (c2 :: run'').length 2
      have h1 : X.length + 2 * (c :: c2 :: run'').length - 1 =
          (X ++ [c.1, c.2]).length + 2 * (c2 :: run'').length - 1 :=
        len_step X c.1 c.2 (c2 :: run'').length 1
      have hih := ih (X ++ [c.1, c.2]) Y (by simp)
      rw [hbuf, h2, h1]
      rw [show (c :: c2 :: run'').getLastD (0, 0) = (c2 :: run'').getLastD (0, 0) from
        List.getLastD_cons c (0, 0) (c2 :: run'')]
      exact hih

theorem readByte_flat_penult : ∀ (run : List (Nat × Nat)) (X Y : List Nat),
    2 ≤ run.length →
    readByte (X ++ flatC run ++ Y) (X.length + 2 * run.length - 4) =
      (run.getD (run.length - 2) (0, 0)).1 := by
  intro run
  induction run with
  | nil =>
    intro X Y h
    simp at h
  | cons c run' ih =>
    intro X Y h
    cases run' with
    | nil => simp at h
    | cons c2 run'' =>
      cases run'' with
      | nil =>
        have hbuf : X ++ flatC [c, c2] ++ Y = X ++ (c.1 :: c.2 :: c2.1 :: c2.2 :: Y) := by
          show X ++ ([c.1, c.2] ++ ([c2.1, c2.2] ++ [])) ++ Y = _
          simp
        rw [show X.length + 2 * ([c, c2] : List (Nat × Nat)).length - 4 = X.length + 0 by
          simp, hbuf, readByte_right]
        rfl
      | cons c3 run3 =>
        have hbuf : X ++ flatC (c :: c2 :: c3 :: run3) ++ Y =
            (X ++ [c.1, c.2]) ++ flatC (c2 :: c3 :: run3) ++ Y := by
          show X ++ ([c.1, c.2] ++ flatC (c2 :: c3 :: run3)) ++ Y = _
          simp
        have h4 : X.length + 2 * (c :: c2 :: c3 :: run3).length - 4 =
            (X ++ [c.1, c.2]).length + 2 * (c2 :: c3 :: run3).length - 4 :=
          len_step X c.1 c.2 (c2 :: c3 :: run3).length 4
        rw [hbuf, h4, ih (X ++ [c.1, c.2]) Y (by simp)]
        have hidx : (c :: c2 :: c3 :: run3).length - 2 =
            ((c2 :: c3 :: run3).length - 2) + 1 := by
          simp only [List.length_cons]
          omega
        rw [hidx, List.getD_cons_succ]

/-- The inner while loop, entered at the position of a confirmed ideograph
character, emits one 4-byte bigram per adjacent pair of the maximal
ideograph run and stops at the first non-ideograph character boundary. -/
theorem bigLoopRun : ∀ (rest : List Item) (C : List Nat) (f : Nat),
    (∀ it ∈ rest, it.wfb = true) → rest.length + 1 ≤ f → ideoHead rest = true →
    bigLoop (C ++ render rest) f C.length =
      (pairsTok (ideoRun rest), C.length + 2 * (ideoRun rest).length) := by
  intro rest
  induction rest with
  | nil =>
    intro C f _ _ hh
    simp [ideoHead] at hh
  | cons it rest2 ih =>
    intro C f hwf hf hh
    cases it with
    | ascii b => simp [ideoHead] at hh
    | dbyte l t =>
      have hl : is_big5word l = true := by simpa [ideoHead] using hh
      have hwdb := wfb_dbyte (hwf _ (List.mem_cons_self _ _))
      have hrun : ideoRun (Item.dbyte l t :: rest2) = (l, t) :: ideoRun rest2 := by
        show (if is_big5word l = true then (l, t) :: ideoRun rest2 else []) = _
        rw [if_pos hl]
      cases f with
      | zero => exact absurd hf (by simp)
      | succ f' =>
        have hbuf : C ++ render (Item.dbyte l t :: rest2) =
            (C ++ [l, t]) ++ render rest2 := by
          rw [render_cons]
          show C ++ ([l, t] ++ render rest2) = _
          rw [List.append_assoc]
        have hq : readByte (C ++ render (Item.dbyte l t :: rest2)) (C.length + 2) =
            headByteI rest2 := by
          rw [hbuf]
          have h := readByte_render_head (C ++ [l, t]) rest2
          simp only [List.length_append, List.length_cons, List.length_nil] at h
          rw [show C.length + 2 = C.length + (1 + 1) by omega]
          exact h
        show (let q := C.length + 2;
          if is_big5word (readByte (C ++ render (Item.dbyte l t :: rest2)) q) then
            let r := bigLoop (C ++ render (Item.dbyte l t :: rest2)) f' q
            (cstrN (C ++ render (Item.dbyte l t :: rest2)) C.length 4 :: r.1, r.2)
          else ([], q)) = _
        simp only [hq]
        rw [ideoHead_eq rest2 (fun x hx => hwf x (List.mem_cons_of_mem _ hx))]
        by_cases hh2 : ideoHead rest2 = true
        · rw [if_pos hh2]
          have hrec : bigLoop (C ++ render (Item.dbyte l t :: rest2)) f'
              (C.length + 2) =
              (pairsTok (ideoRun rest2),
                (C.length + 2) + 2 * (ideoRun rest2).length) := by
            have h := ih (C ++ [l, t]) f'
              (fun x hx => hwf x (List.mem_cons_of_mem _ hx))
              (by simp only [List.length_cons] at hf; omega) hh2
            simp only [List.length_append, List.length_cons, List.length_nil] at h
            rw [hbuf]
            rw [show C.length + 2 = C.length + (1 + 1) by omega]
            exact h
          rw [hrec]
          cases rest2 with
          | nil => simp [ideoHead] at hh2
          | cons it2 rest3 =>
            cases it2 with
            | ascii b2 => simp [ideoHead] at hh2
            | dbyte l2 t2 =>
              have hl2 : is_big5word l2 = true := by simpa [ideoHead] using hh2
              have hw2 := wfb_dbyte (hwf _ (List.mem_cons_of_mem _
                (List.mem_cons_self _ _)))
              have hrun2 : ideoRun (Item.dbyte l2 t2 :: rest3) =
                  (l2, t2) :: ideoRun rest3 := by
                show (if is_big5word l2 = true then (l2, t2) :: ideoRun rest3 else []) = _
                rw [if_pos hl2]
              have htok : cstrN (C ++ render (Item.dbyte l t :: Item.dbyte l2 t2 :: rest3))
                  C.length 4 = [l, t, l2, t2] := by
                apply cstrN_eval
                · rw [render_cons]
                  show readByte (C ++ ([l, t] ++ render (Item.dbyte l2 t2 :: rest3)))
                    (C.length + 0) = l
                  rw [readByte_right]
                  rfl
                · rw [render_cons]
                  show readByte (C ++ ([l, t] ++ render (Item.dbyte l2 t2 :: rest3)))
                    (C.length + 1) = t
                  rw [readByte_right]
                  rfl
                · rw [render_cons, render_cons]
                  show readByte (C ++ ([l, t] ++ ([l2, t2] ++ render rest3)))
                    (C.length + 2) = l2
                  rw [readByte_right]
                  rfl
                · rw [render_cons, render_cons]
                  show readByte (C ++ ([l, t] ++ ([l2, t2] ++ render rest3)))
                    (C.length + 3) = t2
                  rw [readByte_right]
                  rfl
                · omega
                · omega
                · omega
                · omega
              rw [htok, hrun, hrun2]
              simp only [Prod.mk.injEq]
              constructor
              · rfl
              · simp only [List.length_cons]
                omega
        · rw [if_neg (by rw [show ideoHead rest2 = false by simpa using hh2]; simp)]
          rw [hrun, ideoRun_not_head rest2 (by simpa using hh2)]
          simp only [Prod.mk.injEq]
          constructor
          · rfl
          · simp

/-- One scanner step: terminator reached. -/
theorem extractGo_done (qm : Bool) (buf : List Nat) (f p : Nat)
    (h : readByte buf p = 0) : extractGo qm buf (f + 1) p = [] := by
  simp only [extractGo]
  rw [h, if_pos rfl]

/-- One scanner step: a non-Big5, non-alphanumeric byte is skipped. -/
theorem extractGo_skip (qm : Bool) (buf : List Nat) (f p b : Nat)
    (hb : readByte buf p = b) (h0 : ¬ b = 0) (h5 : ¬ is_big5 b = true)
    (ha : ¬ is_alnum b = true) :
    extractGo qm buf (f + 1) p = extractGo qm buf f (p + 1) := by
  simp only [extractGo]
  rw [hb, if_neg h0, if_neg h5, if_neg ha]

/-- One scanner step: an alphanumeric byte starts an ASCII run. -/
theorem extractGo_alnum (qm : Bool) (buf : List Nat) (f p b : Nat)
    (hb : readByte buf p = b) (h0 : ¬ b = 0) (h5 : ¬ is_big5 b = true)
    (ha : is_alnum b = true) :
    extractGo qm buf (f + 1) p =
      (if 1 < asciiRunLen buf p then [asciiTokAt buf p] else [])
        ++ extractGo qm buf f (p + asciiRunLen buf p) := by
  simp only [extractGo]
  rw [hb, if_neg h0, if_neg h5, if_pos ha]

/-- One scanner step: a Big5 lead byte whose following character is an
ideograph enters the bigram loop. -/
theorem extractGo_big_word (qm : Bool) (buf : List Nat) (f p b : Nat)
    (hb : readByte buf p = b) (h0 : ¬ b = 0) (h5 : is_big5 b = true)
    (hw : is_big5word (readByte buf (p + 2)) = true) :
    extractGo qm buf (f + 1) p =
      (if is_big5word b = true then [cstrN buf p 4] else [])
        ++ (bigLoop buf (buf.length + 2) (p + 2)).1
        ++ (if (qm && is_big5word (readByte buf
              ((bigLoop buf (buf.length + 2) (p + 2)).2 - 4))) = true then []
            else [uniTokAt buf ((bigLoop buf (buf.length + 2) (p + 2)).2 - 2)])
        ++ extractGo qm buf f (bigLoop buf (buf.length + 2) (p + 2)).2 := by
  simp only [extractGo]
  rw [hb, if_neg h0, if_pos h5, if_pos hw]

/-- One scanner step: a Big5 lead byte not followed by an ideograph emits
the conditional single-character token. -/
theorem extractGo_big_non (qm : Bool) (buf : List Nat) (f p b : Nat)
    (hb : readByte buf p = b) (h0 : ¬ b = 0) (h5 : is_big5 b = true)
    (hw : ¬ is_big5word (readByte buf (p + 2)) = true) :
    extractGo qm buf (f + 1) p =
      (if is_big5word b = true then [uniTokAt buf p] else [])
        ++ extractGo qm buf f (p + 2) := by
  simp only [extractGo]
  rw [hb, if_neg h0, if_pos h5, if_neg hw]

/-- One item-scanner step: the empty list. -/
theorem itemScanGo_nil (qm : Bool) (f : Nat) : itemScanGo qm (f + 1) [] = [] := rfl

/-- One item-scanner step: an alphanumeric ascii item. -/
theorem itemScanGo_ascii_pos (qm : Bool) (f b : Nat) (rest : List Item)
    (ha : is_alnum b = true) :
    itemScanGo qm (f + 1) (Item.ascii b :: rest) =
      (if 1 < (b :: alnumBytes rest).length
        then [((b :: alnumBytes rest).take MAXKEY).map lowerByte] else [])
        ++ itemScanGo qm f (alnumDrop rest) := by
  simp only [itemScanGo]
  rw [if_pos ha]

/-- One item-scanner step: a non-alphanumeric ascii item. -/
theorem itemScanGo_ascii_neg (qm : Bool) (f b : Nat) (rest : List Item)
    (ha : ¬ is_alnum b = true) :
    itemScanGo qm (f + 1) (Item.ascii b :: rest) = itemScanGo qm f rest := by
  simp only [itemScanGo]
  rw [if_neg ha]

/-- One item-scanner step: a double-byte item followed by an ideograph. -/
theorem itemScanGo_dbyte_pos (qm : Bool) (f l t : Nat) (rest : List Item)
    (hh : ideoHead rest = true) :
    itemScanGo qm (f + 1) (Item.dbyte l t :: rest) =
      (if is_big5word l = true then
        [[l, t, ((ideoRun rest).headD (0, 0)).1, ((ideoRun rest).headD (0, 0)).2]]
       else [])
        ++ pairsTok (ideoRun rest)
        ++ (if (qm && is_big5word (penultD ((l, t) :: ideoRun rest)).1) = true then []
            else [[((ideoRun rest).getLastD (0, 0)).1,
                   ((ideoRun rest).getLastD (0, 0)).2, 0x21, 0x21]])
        ++ itemScanGo qm f (ideoDrop rest) := by
  simp only [itemScanGo]
  rw [if_pos hh]

/-- One item-scanner step: a double-byte item not followed by an ideograph. -/
theorem itemScanGo_dbyte_neg (qm : Bool) (f l t : Nat) (rest : List Item)
    (hh : ¬ ideoHead rest = true) :
    itemScanGo qm (f + 1) (Item.dbyte l t :: rest) =
      (if is_big5word l = true then [[l, t, 0x21, 0x21]] else [])
        ++ itemScanGo qm f rest := by
  simp only [itemScanGo]
  rw [if_neg hh]

/-- The two bytes of the last character of the leading run, read at the
loop-exit cursor minus 2 and minus 1. -/
theorem scan_run_last (A : List Nat) (l t : Nat) (rest : List Item)
    (hk1 : 1 ≤ (ideoRun rest).length)
    (hbuf3 : A ++ render (Item.dbyte l t :: rest) =
      A ++ [l, t] ++ flatC (ideoRun rest) ++ render (ideoDrop rest))
    (hlen2 : (A ++ [l, t]).length = A.length + 2) :
    readByte (A ++ render (Item.dbyte l t :: rest))
        (A.length + 2 + 2 * (ideoRun rest).length - 2) =
      ((ideoRun rest).getLastD (0, 0)).1 ∧
    readByte (A ++ render (Item.dbyte l t :: rest))
        (A.length + 2 + 2 * (ideoRun rest).length - 2 + 1) =
      ((ideoRun rest).getLastD (0, 0)).2 := by
  have hlastpair := readByte_flat_last (ideoRun rest) (A ++ [l, t])
    (render (ideoDrop rest))
    (by
      intro hc
      rw [hc] at hk1
      simp at hk1)
  rw [hlen2, ← hbuf3] at hlastpair
  refine ⟨hlastpair.1, ?_⟩
  rw [show A.length + 2 + 2 * (ideoRun rest).length - 2 + 1 =
    A.length + 2 + 2 * (ideoRun rest).length - 1 by omega]
  exact hlastpair.2

/-- The lead byte of the second-to-last character of the whole run
(including the entering character), read at the loop-exit cursor minus 4. -/
theorem scan_run_penult (A : List Nat) (l t : Nat) (rest : List Item)
    (hb0 : readByte (A ++ render (Item.dbyte l t :: rest)) A.length = l)
    (hk1 : 1 ≤ (ideoRun rest).length)
    (hbuf3 : A ++ render (Item.dbyte l t :: rest) =
      A ++ [l, t] ++ flatC (ideoRun rest) ++ render (ideoDrop rest))
    (hlen2 : (A ++ [l, t]).length = A.length + 2) :
    readByte (A ++ render (Item.dbyte l t :: rest))
        (A.length + 2 + 2 * (ideoRun rest).length - 4) =
      (penultD ((l, t) :: ideoRun rest)).1 := by
  rcases hsplit : ideoRun rest with _ | ⟨c, cs⟩
  · rw [hsplit] at hk1
    simp at hk1
  · cases cs with
    | nil =>
      rw [show A.length + 2 + 2 * ([c] : List (Nat × Nat)).length - 4 =
        A.length by simp]
      rw [hb0]
      rfl
    | cons c2 cs2 =>
      have h := readByte_flat_penult (ideoRun rest) (A ++ [l, t])
        (render (ideoDrop rest)) (by rw [hsplit]; simp)
      rw [hlen2, ← hbuf3, hsplit] at h
      rw [h]
      show (List.getD (c :: c2 :: cs2) ((c :: c2 :: cs2).length - 2) (0, 0)).1 =
        (List.getD ((l, t) :: c :: c2 :: cs2)
          (((l, t) :: c :: c2 :: cs2).length - 2) (0, 0)).1
      have hidx : ((l, t) :: c :: c2 :: cs2).length - 2 =
          ((c :: c2 :: cs2).length - 2) + 1 := by
        simp only [List.length_cons]
        omega
      rw [hidx, List.getD_cons_succ]

/-- The bigram loop entered at the first run character after the entering
double-byte item: it emits the run's adjacent bigrams and stops two bytes
past the run. -/
theorem scan_run_big (A : List Nat) (l t : Nat) (rest : List Item)
    (hwrest : ∀ x ∈ rest, x.wfb = true) (hh2 : ideoHead rest = true)
    (hbuf2 : A ++ render (Item.dbyte l t :: rest) = (A ++ [l, t]) ++ render rest)
    (hlen2 : (A ++ [l, t]).length = A.length + 2) :
    bigLoop (A ++ render (Item.dbyte l t :: rest))
        ((A ++ render (Item.dbyte l t :: rest)).length + 2) (A.length + 2) =
      (pairsTok (ideoRun rest), (A.length + 2) + 2 * (ideoRun rest).length) := by
  have hfuel : rest.length + 1 ≤
      (A ++ render (Item.dbyte l t :: rest)).length + 2 := by
    have h1 := render_length_ge rest
    have h2 : (A ++ render (Item.dbyte l t :: rest)).length =
        A.length + 2 + (render rest).length := by
      rw [hbuf2]
      simp only [List.length_append, List.length_cons, List.length_nil]
    omega
  have h := bigLoopRun rest (A ++ [l, t])
    ((A ++ render (Item.dbyte l t :: rest)).length + 2) hwrest hfuel hh2
  rw [hlen2, hbuf2] at h
  rw [hbuf2]
  exact h

/-- The single-character token built at the loop-exit cursor minus 2 is the
last run character followed by the two marker bytes. -/
theorem scan_run_uni (A : List Nat) (l t : Nat) (rest : List Item)
    (hwrest : ∀ x ∈ rest, x.wfb = true)
    (hk1 : 1 ≤ (ideoRun rest).length)
    (hbuf3 : A ++ render (Item.dbyte l t :: rest) =
      A ++ [l, t] ++ flatC (ideoRun rest) ++ render (ideoDrop rest))
    (hlen2 : (A ++ [l, t]).length = A.length + 2) :
    uniTokAt (A ++ render (Item.dbyte l t :: rest))
        (A.length + 2 + 2 * (ideoRun rest).length - 2) =
      [((ideoRun rest).getLastD (0, 0)).1,
        ((ideoRun rest).getLastD (0, 0)).2, 0x21, 0x21] := by
  have hlast1 := (scan_run_last A l t rest hk1 hbuf3 hlen2).1
  have hlast2 := (scan_run_last A l t rest hk1 hbuf3 hlen2).2
  have hlmem : (ideoRun rest).getLastD (0, 0) ∈ ideoRun rest := by
    cases hr : ideoRun rest with
    | nil =>
      rw [hr] at hk1
      simp at hk1
    | cons c cs =>
      rw [List.getLastD_cons]
      exact List.getLastD_mem_cons cs c
  apply uniTok_eval _ _ _ _ hlast1 hlast2
  · have h := ideoRun_ideo rest _ hlmem
    simp only [is_big5word, decide_eq_true_eq] at h
    omega
  · exact ideoRun_trail rest hwrest _ hlmem

/-- The 4-byte token captured for the entering character is that character
followed by the first run character. -/
theorem scan_run_first (A : List Nat) (l t : Nat) (rest : List Item)
    (hwrest : ∀ x ∈ rest, x.wfb = true)
    (hb0 : readByte (A ++ render (Item.dbyte l t :: rest)) A.length = l)
    (ht1 : readByte (A ++ render (Item.dbyte l t :: rest)) (A.length + 1) = t)
    (hbne : ¬ l = 0) (htne : ¬ t = 0)
    (hbuf3 : A ++ render (Item.dbyte l t :: rest) =
      A ++ [l, t] ++ flatC (ideoRun rest) ++ render (ideoDrop rest))
    (hlen2 : (A ++ [l, t]).length = A.length + 2) :
    ∀ c2 cs2, ideoRun rest = c2 :: cs2 →
      cstrN (A ++ render (Item.dbyte l t :: rest)) A.length 4 =
        [l, t, c2.1, c2.2] := by
  intro c2 cs2 hr
  apply cstrN_eval
  · exact hb0
  · exact ht1
  · have h := readByte_right (A ++ [l, t]) (flatC (ideoRun rest) ++
      render (ideoDrop rest)) 0
    rw [hlen2] at h
    rw [show A.length + 2 = A.length + 2 + 0 by omega, ← List.append_assoc,
      ← hbuf3] at h
    rw [h, hr]
    rfl
  · have h := readByte_right (A ++ [l, t]) (flatC (ideoRun rest) ++
      render (ideoDrop rest)) 1
    rw [hlen2] at h
    rw [show A.length + 2 + 1 = A.length + 3 by omega] at h
    rw [← List.append_assoc, ← hbuf3] at h
    rw [h, hr]
    rfl
  · exact hbne
  · exact htne
  · have h := ideoRun_ideo rest c2 (by rw [hr]; exact List.mem_cons_self _ _)
    simp only [is_big5word, decide_eq_true_eq] at h
    intro hc
    omega
  · exact ideoRun_trail rest hwrest c2
      (by rw [hr]; exact List.mem_cons_self _ _)

/-- The byte-level scanner, run over a well-formed rendered item buffer from
an item boundary, computes the item-level scan (one unit of fuel per outer
iteration on both sides). -/
theorem scan_model (qm : Bool) : ∀ (f : Nat) (zs : List Item) (A : List Nat),
    (∀ it ∈ zs, it.wfb = true) →
    extractGo qm (A ++ render zs) f A.length = itemScanGo qm f zs := by
  intro f
  induction f with
  | zero =>
    intro zs A _
    rfl
  | succ f ih =>
    intro zs A hwf
    have hhead := readByte_render_head A zs
    cases zs with
    | nil =>
      have h0 : readByte (A ++ render ([] : List Item)) A.length = 0 := hhead
      rw [extractGo_done qm (A ++ render ([] : List Item)) f A.length h0,
        itemScanGo_nil]
    | cons it rest =>
      have hwrest : ∀ x ∈ rest, x.wfb = true :=
        fun x hx => hwf x (List.mem_cons_of_mem _ hx)
      cases it with
      | ascii b =>
        have hwa := wfb_ascii (hwf _ (List.mem_cons_self _ _))
        have hb0 : readByte (A ++ render (Item.ascii b :: rest)) A.length = b := hhead
        have hbne : ¬ b = 0 := by omega
        have hnb5 : ¬ is_big5 b = true := by
          simp only [is_big5, decide_eq_true_eq]
          omega
        have hdrop : (A ++ render (Item.ascii b :: rest)).drop A.length =
            b :: render rest := by
          rw [render_cons]
          show (A ++ ([b] ++ render rest)).drop A.length = _
          exact List.drop_left A ([b] ++ render rest)
        by_cases ha : is_alnum b = true
        · rw [extractGo_alnum qm (A ++ render (Item.ascii b :: rest)) f A.length b
            hb0 hbne hnb5 ha, itemScanGo_ascii_pos qm f b rest ha]
          have hn : asciiRunLen (A ++ render (Item.ascii b :: rest)) A.length =
              (b :: alnumBytes rest).length := by
            unfold asciiRunLen
            rw [hdrop, List.takeWhile_cons_of_pos ha, alnumBytes_render rest hwrest]
          have htok : asciiTokAt (A ++ render (Item.ascii b :: rest)) A.length =
              ((b :: alnumBytes rest).take MAXKEY).map lowerByte := by
            unfold asciiTokAt
            rw [hdrop, List.takeWhile_cons_of_pos ha, alnumBytes_render rest hwrest]
          have hcont : extractGo qm (A ++ render (Item.ascii b :: rest)) f
              (A.length + (b :: alnumBytes rest).length) =
              itemScanGo qm f (alnumDrop rest) := by
            have hbuf : A ++ render (Item.ascii b :: rest) =
                (A ++ (b :: alnumBytes rest)) ++ render (alnumDrop rest) := by
              rw [render_cons, alnumDrop_render rest]
              show A ++ ([b] ++ (alnumBytes rest ++ render (alnumDrop rest))) = _
              simp [List.append_assoc]
            have h := ih (alnumDrop rest) (A ++ (b :: alnumBytes rest))
              (fun x hx => hwrest x (mem_alnumDrop hx))
            rw [List.length_append] at h
            rw [hbuf]
            exact h
          rw [hn, htok, hcont]
        · rw [extractGo_skip qm (A ++ render (Item.ascii b :: rest)) f A.length b
            hb0 hbne hnb5 ha, itemScanGo_ascii_neg qm f b rest ha]
          have hbuf : A ++ render (Item.ascii b :: rest) = (A ++ [b]) ++ render rest := by
            rw [render_cons]
            show A ++ ([b] ++ render rest) = _
            rw [List.append_assoc]
          have h := ih rest (A ++ [b]) hwrest
          simp only [List.length_append, List.length_cons, List.length_nil] at h
          rw [hbuf]
          rw [show A.length + 1 = A.length + (0 + 1) by omega]
          exact h
      | dbyte l t =>
        have hwd := wfb_dbyte (hwf _ (List.mem_cons_self _ _))
        have hb0 : readByte (A ++ render (Item.dbyte l t :: rest)) A.length = l := hhead
        have hbne : ¬ l = 0 := by omega
        have hb5 : is_big5 l = true := by
          simp only [is_big5, decide_eq_true_eq]
          omega
        have hbuf2 : A ++ render (Item.dbyte l t :: rest) =
            (A ++ [l, t]) ++ render rest := by
          rw [render_cons]
          show A ++ ([l, t] ++ render rest) = _
          rw [List.append_assoc]
        have hlen2 : (A ++ [l, t]).length = A.length + 2 := by
          simp
        have hq : readByte (A ++ render (Item.dbyte l t :: rest)) (A.length + 2) =
            headByteI rest := by
          rw [hbuf2]
          have h := readByte_render_head (A ++ [l, t]) rest
          rw [hlen2] at h
          exact h
        have ht1 : readByte (A ++ render (Item.dbyte l t :: rest)) (A.length + 1) = t := by
          rw [render_cons]
          show readByte (A ++ ([l, t] ++ render rest)) (A.length + 1) = t
          rw [readByte_right]
          rfl
        have hq2 : is_big5word (readByte (A ++ render (Item.dbyte l t :: rest))
            (A.length + 2)) = ideoHead rest := by
          rw [hq, ideoHead_eq rest hwrest]
        by_cases hh2 : ideoHead rest = true
        · rw [extractGo_big_word qm (A ++ render (Item.dbyte l t :: rest)) f A.length l
            hb0 hbne hb5 (by rw [hq2]; exact hh2),
            itemScanGo_dbyte_pos qm f l t rest hh2]
          have hrunsplit := ideoRun_render rest
          have hbuf3 : A ++ render (Item.dbyte l t :: rest) =
              ((A ++ [l, t]) ++ flatC (ideoRun rest)) ++ render (ideoDrop rest) := by
            rw [hbuf2, hrunsplit]
            simp [List.append_assoc]
          have hk1 : 1 ≤ (ideoRun rest).length := by
            cases rest with
            | nil => simp [ideoHead] at hh2
            | cons it2 rest3 =>
              cases it2 with
              | ascii b2 => simp [ideoHead] at hh2
              | dbyte l2 t2 =>
                have hl2 : is_big5word l2 = true := by simpa [ideoHead] using hh2
                rw [show ideoRun (Item.dbyte l2 t2 :: rest3) =
                    (l2, t2) :: ideoRun rest3 from by
                  show (if is_big5word l2 = true then (l2, t2) :: ideoRun rest3
                    else []) = _
                  rw [if_pos hl2]]
                simp
          have hbig := scan_run_big A l t rest hwrest hh2 hbuf2 hlen2
          have hbig1 : (bigLoop (A ++ render (Item.dbyte l t :: rest))
              ((A ++ render (Item.dbyte l t :: rest)).length + 2) (A.length + 2)).1 =
              pairsTok (ideoRun rest) := by
            rw [hbig]
          have hbig2 : (bigLoop (A ++ render (Item.dbyte l t :: rest))
              ((A ++ render (Item.dbyte l t :: rest)).length + 2) (A.length + 2)).2 =
              A.length + 2 + 2 * (ideoRun rest).length := by
            rw [hbig]
          rw [hbig2, hbig1]
          have hpen := scan_run_penult A l t rest hb0 hk1 hbuf3 hlen2
          have huni := scan_run_uni A l t rest hwrest hk1 hbuf3 hlen2
          have hcont : extractGo qm (A ++ render (Item.dbyte l t :: rest)) f
              (A.length + 2 + 2 * (ideoRun rest).length) =
              itemScanGo qm f (ideoDrop rest) := by
            have h := ih (ideoDrop rest) ((A ++ [l, t]) ++ flatC (ideoRun rest))
              (fun x hx => hwrest x (mem_ideoDrop hx))
            rw [List.length_append, hlen2, flatC_length] at h
            rw [hbuf3]
            exact h
          have hfirst := scan_run_first A l t rest hwrest hb0 ht1 hbne
            (Nat.pos_iff_ne_zero.mp hwd.2.2.1) hbuf3 hlen2
          rcases hsplit : ideoRun rest with _ | ⟨c2, cs2⟩
          · rw [hsplit] at hk1
            simp at hk1
          · rw [hsplit] at hpen huni hcont
            rw [hfirst c2 cs2 hsplit, hpen, huni, hcont]
            rfl
        · rw [extractGo_big_non qm (A ++ render (Item.dbyte l t :: rest)) f A.length l
            hb0 hbne hb5 (by rw [hq2]; exact hh2),
            itemScanGo_dbyte_neg qm f l t rest hh2]
          have huni : uniTokAt (A ++ render (Item.dbyte l t :: rest)) A.length =
              [l, t, 0x21, 0x21] := by
            apply uniTok_eval _ _ _ _ hb0 ht1 hbne
            omega
          have hcont : extractGo qm (A ++ render (Item.dbyte l t :: rest)) f
              (A.length + 2) = itemScanGo qm f rest := by
            have h := ih rest (A ++ [l, t]) hwrest
            rw [hlen2] at h
            rw [hbuf2]
            exact h
          rw [huni, hcont]

/-- Unfolding equation: alnumBytes on an ascii item. -/
theorem alnumBytes_cons_ascii (b : Nat) (zs : List Item) :
    alnumBytes (Item.ascii b :: zs) =
      if is_alnum b = true then b :: alnumBytes zs else [] := rfl

/-- Unfolding equation: alnumBytes on a double-byte item. -/
theorem alnumBytes_cons_dbyte (l t : Nat) (zs : List Item) :
    alnumBytes (Item.dbyte l t :: zs) = [] := rfl

/-- Unfolding equation: alnumDrop on an ascii item. -/
theorem alnumDrop_cons_ascii (b : Nat) (zs : List Item) :
    alnumDrop (Item.ascii b :: zs) =
      if is_alnum b = true then alnumDrop zs else Item.ascii b :: zs := rfl

/-- Unfolding equation: alnumDrop on a double-byte item. -/
theorem alnumDrop_cons_dbyte (l t : Nat) (zs : List Item) :
    alnumDrop (Item.dbyte l t :: zs) = Item.dbyte l t :: zs := rfl

/-- Unfolding equation: ideoRun on a double-byte item. -/
theorem ideoRun_cons_dbyte (l t : Nat) (zs : List Item) :
    ideoRun (Item.dbyte l t :: zs) =
      if is_big5word l = true then (l, t) :: ideoRun zs else [] := rfl

/-- Unfolding equation: ideoRun on an ascii item. -/
theorem ideoRun_cons_ascii (b : Nat) (zs : List Item) :
    ideoRun (Item.ascii b :: zs) = [] := rfl

/-- Unfolding equation: ideoDrop on a double-byte item. -/
theorem ideoDrop_cons_dbyte (l t : Nat) (zs : List Item) :
    ideoDrop (Item.dbyte l t :: zs) =
      if is_big5word l = true then ideoDrop zs else Item.dbyte l t :: zs := rfl

/-- Unfolding equation: ideoDrop on an ascii item. -/
theorem ideoDrop_cons_ascii (b : Nat) (zs : List Item) :
    ideoDrop (Item.ascii b :: zs) = Item.ascii b :: zs := rfl

/-- Unfolding equation: ideoHead on a double-byte item. -/
theorem ideoHead_cons_dbyte (l t : Nat) (zs : List Item) :
    ideoHead (Item.dbyte l t :: zs) = is_big5word l := rfl

/-- The item scanner ignores the exact fuel value as long as it exceeds the
item count: each outer iteration consumes at least one item. -/
theorem itemScanGo_fuel (qm : Bool) : ∀ (f g : Nat) (zs : List Item),
    zs.length < f → zs.length < g → itemScanGo qm f zs = itemScanGo qm g zs := by
  intro f
  induction f with
  | zero =>
    intro g zs hf _
    omega
  | succ f ih =>
    intro g zs hf hg
    cases g with
    | zero => omega
    | succ g =>
      cases zs with
      | nil => rfl
      | cons it rest =>
        cases it with
        | ascii b =>
          simp only [itemScanGo]
          by_cases ha : is_alnum b = true
          · rw [if_pos ha, if_pos ha]
            rw [ih g (alnumDrop rest)
              (by have := alnumDrop_len rest
                  simp only [List.length_cons] at hf
                  omega)
              (by have := alnumDrop_len rest
                  simp only [List.length_cons] at hg
                  omega)]
          · rw [if_neg ha, if_neg ha]
            rw [ih g rest
              (by simp only [List.length_cons] at hf; omega)
              (by simp only [List.length_cons] at hg; omega)]
        | dbyte l t =>
          simp only [itemScanGo]
          by_cases hh : ideoHead rest = true
          · rw [if_pos hh, if_pos hh]
            rw [ih g (ideoDrop rest)
              (by have := ideoDrop_len rest
                  simp only [List.length_cons] at hf
                  omega)
              (by have := ideoDrop_len rest
                  simp only [List.length_cons] at hg
                  omega)]
          · rw [if_neg hh, if_neg hh]
            rw [ih g rest
              (by simp only [List.length_cons] at hf; omega)
              (by simp only [List.length_cons] at hg; omega)]

/-- Any sufficient fuel computes the canonical item scan. -/
theorem itemScanGo_eq_itemScan (qm : Bool) (f : Nat) (zs : List Item)
    (h : zs.length < f) : itemScanGo qm f zs = itemScan qm zs :=
  itemScanGo_fuel qm f (zs.length + 1) zs h (by omega)

/-- extract_words on a rendered well-formed item sequence is the item scan. -/
theorem extract_words_model (qm : Bool) (zs : List Item)
    (hwf : ∀ it ∈ zs, it.wfb = true) :
    extract_words qm (render zs) = itemScan qm zs := by
  have h := scan_model qm ((render zs).length + 1) zs [] hwf
  simp only [List.nil_append, List.length_nil] at h
  show extractGo qm (render zs) ((render zs).length + 1) 0 = _
  rw [h]
  exact itemScanGo_eq_itemScan qm _ zs
    (by have := render_length_ge zs; omega)

/-- The empty scan emits nothing. -/
theorem itemScan_nil (qm : Bool) : itemScan qm [] = [] := rfl

/-- One scanner step on an alphanumeric ascii item: the maximal alnum run is
collected (token kept when longer than one byte) and the scan resumes after
the run. -/
theorem itemScan_ascii_pos (qm : Bool) (b : Nat) (rest : List Item)
    (ha : is_alnum b = true) :
    itemScan qm (Item.ascii b :: rest) =
      (if 1 < (b :: alnumBytes rest).length
        then [((b :: alnumBytes rest).take MAXKEY).map lowerByte] else [])
        ++ itemScan qm (alnumDrop rest) := by
  show itemScanGo qm ((Item.ascii b :: rest).length + 1) (Item.ascii b :: rest) = _
  simp only [itemScanGo]
  rw [if_pos ha]
  rw [itemScanGo_eq_itemScan qm (Item.ascii b :: rest).length (alnumDrop rest)
    (by have := alnumDrop_len rest
        simp only [List.length_cons]
        omega)]

/-- One scanner step on a non-alphanumeric ascii item: skipped. -/
theorem itemScan_ascii_neg (qm : Bool) (b : Nat) (rest : List Item)
    (ha : ¬ is_alnum b = true) :
    itemScan qm (Item.ascii b :: rest) = itemScan qm rest := by
  show itemScanGo qm ((Item.ascii b :: rest).length + 1) (Item.ascii b :: rest) = _
  simp only [itemScanGo]
  rw [if_neg ha]
  exact itemScanGo_eq_itemScan qm (Item.ascii b :: rest).length rest
    (by simp only [List.length_cons]; omega)

/-- One scanner step on a double-byte item followed by an ideograph: the
whole following run is consumed, bigrams and the conditional trailing
unigram are emitted, and the scan resumes after the run. -/
theorem itemScan_dbyte_ideo (qm : Bool) (l t : Nat) (rest : List Item)
    (hh : ideoHead rest = true) :
    itemScan qm (Item.dbyte l t :: rest) =
      (if is_big5word l = true then
        [[l, t, ((ideoRun rest).headD (0, 0)).1, ((ideoRun rest).headD (0, 0)).2]]
       else [])
        ++ pairsTok (ideoRun rest)
        ++ (if (qm && is_big5word (penultD ((l, t) :: ideoRun rest)).1) = true then []
            else [[((ideoRun rest).getLastD (0, 0)).1,
                   ((ideoRun rest).getLastD (0, 0)).2, 0x21, 0x21]])
        ++ itemScan qm (ideoDrop rest) := by
  show itemScanGo qm ((Item.dbyte l t :: rest).length + 1) (Item.dbyte l t :: rest) = _
  simp only [itemScanGo]
  rw [if_pos hh]
  rw [itemScanGo_eq_itemScan qm (Item.dbyte l t :: rest).length (ideoDrop rest)
    (by have := ideoDrop_len rest
        simp only [List.length_cons]
        omega)]

/-- One scanner step on a double-byte item not followed by an ideograph:
only the conditional single-character token is emitted. -/
theorem itemScan_dbyte_non (qm : Bool) (l t : Nat) (rest : List Item)
    (hh : ¬ ideoHead rest = true) :
    itemScan qm (Item.dbyte l t :: rest) =
      (if is_big5word l = true then [[l, t, 0x21, 0x21]] else [])
        ++ itemScan qm rest := by
  show itemScanGo qm ((Item.dbyte l t :: rest).length + 1) (Item.dbyte l t :: rest) = _
  simp only [itemScanGo]
  rw [if_neg hh]
  rw [itemScanGo_eq_itemScan qm (Item.dbyte l t :: rest).length rest
    (by simp only [List.length_cons]; omega)]

/-- lastIdeo ignores any item before a nonempty tail. -/
theorem lastIdeo_cons (x : Item) (ys : List Item) (h : ys ≠ []) :
    lastIdeo (x :: ys) = lastIdeo ys := by
  cases ys with
  | nil => exact absurd rfl h
  | cons y l =>
    unfold lastIdeo
    rw [List.getLast?_cons_cons]

/-- lastIdeo of a suffix of a sequence whose last item is not an ideograph. -/
theorem lastIdeo_suffix {xs ys : List Item} (us : List Item) (hus : us ++ ys = xs)
    (h : lastIdeo xs = false) : lastIdeo ys = false := by
  cases hy : ys with
  | nil => rfl
  | cons y l =>
    rw [← hus, hy] at h
    unfold lastIdeo at h ⊢
    rw [List.getLast?_append_cons us y l] at h
    exact h

/-- ideoHead only looks at the first item. -/
theorem ideoHead_append (ys zs : List Item) (h : ys ≠ []) :
    ideoHead (ys ++ zs) = ideoHead ys := by
  cases ys with
  | nil => exact absurd rfl h
  | cons it rest =>
    cases it with
    | ascii b => rfl
    | dbyte l t => rfl

/-- When a nonempty sequence does not end in an ideograph item, its leading
ideograph run (and the rest after it) is unchanged by appending. -/
theorem ideoRun_append : ∀ (ys zs : List Item), ys ≠ [] → lastIdeo ys = false →
    ideoRun (ys ++ zs) = ideoRun ys ∧ ideoDrop (ys ++ zs) = ideoDrop ys ++ zs := by
  intro ys
  induction ys with
  | nil =>
    intro zs h _
    exact absurd rfl h
  | cons it rest ih =>
    intro zs _ hlast
    cases rest with
    | nil =>
      have hni : it.isIdeo = false := by
        simpa [lastIdeo, List.getLast?_singleton] using hlast
      cases it with
      | ascii b =>
        constructor
        · simp only [List.cons_append, List.nil_append, ideoRun_cons_ascii]
        · simp only [List.cons_append, List.nil_append, ideoDrop_cons_ascii]
      | dbyte l t =>
        have hl : ¬ is_big5word l = true := by
          simp only [Item.isIdeo] at hni
          simp [hni]
        constructor
        · simp only [List.cons_append, List.nil_append, ideoRun_cons_dbyte,
            if_neg hl]
        · simp only [List.cons_append, List.nil_append, ideoDrop_cons_dbyte,
            if_neg hl]
    | cons it2 rest2 =>
      have hlast2 : lastIdeo (it2 :: rest2) = false := by
        rw [← lastIdeo_cons it (it2 :: rest2) (by simp)]
        exact hlast
      have hih := ih zs (by simp) hlast2
      simp only [List.cons_append] at hih
      cases it with
      | ascii b =>
        constructor
        · simp only [List.cons_append, ideoRun_cons_ascii]
        · simp only [List.cons_append, ideoDrop_cons_ascii]
      | dbyte l t =>
        by_cases hl : is_big5word l = true
        · constructor
          · simp only [List.cons_append, ideoRun_cons_dbyte, if_pos hl, hih.1]
          · simp only [List.cons_append, ideoDrop_cons_dbyte, if_pos hl, hih.2]
        · constructor
          · simp only [List.cons_append, ideoRun_cons_dbyte, if_neg hl]
          · simp only [List.cons_append, ideoDrop_cons_dbyte, if_neg hl]

/-- A double-byte item stops any alphanumeric run: alnumBytes and alnumDrop
localize to the part before it. -/
theorem alnumBytes_append_dbyte : ∀ (ys : List Item) (a b : Nat) (zs : List Item),
    alnumBytes (ys ++ Item.dbyte a b :: zs) = alnumBytes ys ∧
    alnumDrop (ys ++ Item.dbyte a b :: zs) = alnumDrop ys ++ Item.dbyte a b :: zs := by
  intro ys a b zs
  induction ys with
  | nil => exact ⟨rfl, rfl⟩
  | cons it rest ih =>
    cases it with
    | ascii c =>
      by_cases hc : is_alnum c = true
      · constructor
        · simp only [List.cons_append, alnumBytes_cons_ascii, if_pos hc, ih.1]
        · simp only [List.cons_append, alnumDrop_cons_ascii, if_pos hc, ih.2]
      · constructor
        · simp only [List.cons_append, alnumBytes_cons_ascii, if_neg hc]
        · simp only [List.cons_append, alnumDrop_cons_ascii, if_neg hc]
    | dbyte l t =>
      constructor
      · simp only [List.cons_append, alnumBytes_cons_dbyte]
      · simp only [List.cons_append, alnumDrop_cons_dbyte]

/-- On a nonempty list getLastD does not depend on the default. -/
theorem getLastD_indep (xs : List (Nat × Nat)) (a b : Nat × Nat) (h : xs ≠ []) :
    xs.getLastD a = xs.getLastD b := by
  cases xs with
  | nil => exact absurd rfl h
  | cons x l => rw [List.getLastD_cons, List.getLastD_cons]

/-- The second-to-last element of a long-enough list is a member. -/
theorem penultD_mem (xs : List (Nat × Nat)) (h : 2 ≤ xs.length) :
    penultD xs ∈ xs := by
  unfold penultD
  rw [List.getD_eq_getElem xs (0, 0) (by omega)]
  exact List.getElem_mem _

/-- Prepending to a list of length at least two does not change the
second-to-last element. -/
theorem penultD_cons (c : Nat × Nat) (xs : List (Nat × Nat)) (h : 2 ≤ xs.length) :
    penultD (c :: xs) = penultD xs := by
  unfold penultD
  rw [List.length_cons, show xs.length + 1 - 2 = (xs.length - 2) + 1 by omega,
    List.getD_cons_succ]

/-- A run of n characters yields exactly n - 1 adjacent bigrams. -/
theorem pairsTok_len : ∀ (cs : List (Nat × Nat)), cs ≠ [] →
    (pairsTok cs).length + 1 = cs.length := by
  intro cs
  induction cs with
  | nil =>
    intro h
    exact absurd rfl h
  | cons c cs' ih =>
    intro _
    cases cs' with
    | nil => rfl
    | cons d m =>
      have h := ih (by simp)
      show ([c.1, c.2, d.1, d.2] :: pairsTok (d :: m)).length + 1 = _
      simp only [List.length_cons] at h ⊢
      omega

/-- An items-of-characters run followed by a non-ideograph boundary is
exactly the leading ideograph run of the concatenation. -/
theorem ideoRun_runItems : ∀ (cs : List (Nat × Nat)) (post : List Item),
    (∀ c ∈ cs, wfChar c = true) → ideoHead post = false →
    ideoRun (runItems cs ++ post) = cs ∧ ideoDrop (runItems cs ++ post) = post := by
  intro cs
  induction cs with
  | nil =>
    intro post _ hp
    exact ⟨ideoRun_not_head post hp, ideoDrop_not_head post hp⟩
  | cons c cs' ih =>
    intro post hw hp
    have hc : is_big5word c.1 = true := by
      have h := hw c (List.mem_cons_self _ _)
      simp only [wfChar, decide_eq_true_eq] at h
      simp only [is_big5word, decide_eq_true_eq]
      omega
    have hih := ih post (fun x hx => hw x (List.mem_cons_of_mem _ hx)) hp
    constructor
    · show ideoRun (Item.dbyte c.1 c.2 :: (runItems cs' ++ post)) = c :: cs'
      rw [ideoRun_cons_dbyte, if_pos hc, hih.1]
    · show ideoDrop (Item.dbyte c.1 c.2 :: (runItems cs' ++ post)) = post
      rw [ideoDrop_cons_dbyte, if_pos hc, hih.2]

/-- Scanning a well-formed character run (length at least 2) followed by a
non-ideograph boundary: the adjacent bigrams, then the trailing unigram
unless query mode is on, then the scan of the remainder. -/
theorem itemScan_run (qm : Bool) (cs : List (Nat × Nat)) (post : List Item)
    (hw : ∀ c ∈ cs, wfChar c = true) (hn : 2 ≤ cs.length)
    (hp : ideoHead post = false) :
    itemScan qm (runItems cs ++ post) =
      pairsTok cs ++
        (if qm then []
         else [[(cs.getLastD (0, 0)).1, (cs.getLastD (0, 0)).2, 0x21, 0x21]]) ++
        itemScan qm post := by
  rcases cs with _ | ⟨c, cs'⟩
  · simp at hn
  rcases cs' with _ | ⟨d, m⟩
  · simp at hn
  have hc : is_big5word c.1 = true := by
    have h := hw c (List.mem_cons_self _ _)
    simp only [wfChar, decide_eq_true_eq] at h
    simp only [is_big5word, decide_eq_true_eq]
    omega
  have hd : is_big5word d.1 = true := by
    have h := hw d (List.mem_cons_of_mem _ (List.mem_cons_self _ _))
    simp only [wfChar, decide_eq_true_eq] at h
    simp only [is_big5word, decide_eq_true_eq]
    omega
  have hrun := ideoRun_runItems (d :: m) post
    (fun x hx => hw x (List.mem_cons_of_mem _ hx)) hp
  have hhead : ideoHead (runItems (d :: m) ++ post) = true := by
    show ideoHead (Item.dbyte d.1 d.2 :: (runItems m ++ post)) = true
    rw [ideoHead_cons_dbyte]
    exact hd
  have hstep := itemScan_dbyte_ideo qm c.1 c.2 (runItems (d :: m) ++ post) hhead
  have hpw : is_big5word (penultD ((c.1, c.2) :: d :: m)).1 = true := by
    have hpm := penultD_mem ((c.1, c.2) :: d :: m) (by simp)
    rcases List.mem_cons.mp hpm with h | h
    · rw [h]
      exact hc
    · have h2 := hw _ (List.mem_cons_of_mem c h)
      simp only [wfChar, decide_eq_true_eq] at h2
      simp only [is_big5word, decide_eq_true_eq]
      omega
  show itemScan qm (Item.dbyte c.1 c.2 :: (runItems (d :: m) ++ post)) = _
  rw [hstep, hrun.1, hrun.2, if_pos hc, hpw, Bool.and_true]
  have hlast : (d :: m).getLastD ((0 : Nat), (0 : Nat)) =
      ((c :: d :: m).getLastD (0, 0)) := by
    rw [List.getLastD_cons (0, 0) c (d :: m)]
    exact getLastD_indep (d :: m) (0, 0) c (by simp)
  rw [hlast]
  show ([c.1, c.2, d.1, d.2] :: pairsTok (d :: m)) ++ _ ++ _ = _
  simp only [List.cons_append, List.nil_append, List.append_assoc]
  rw [show pairsTok (c :: d :: m) = [c.1, c.2, d.1, d.2] :: pairsTok (d :: m)
    from rfl, List.cons_append]

/-- Splitting the scan at a maximal well-formed character run: a prefix not
ending in an ideograph scans independently, then the run contributes its
bigrams and conditional trailing unigram, then the remainder scans
independently. -/
theorem itemScan_split (qm : Bool) (cs : List (Nat × Nat)) (post : List Item)
    (hwcs : ∀ c ∈ cs, wfChar c = true) (hn : 2 ≤ cs.length)
    (hp : ideoHead post = false) :
    ∀ (n : Nat) (pre : List Item), pre.length ≤ n →
      (∀ it ∈ pre, it.wfb = true) → lastIdeo pre = false →
      itemScan qm (pre ++ (runItems cs ++ post)) =
        itemScan qm pre ++
          (pairsTok cs ++
            (if qm then []
             else [[(cs.getLastD (0, 0)).1, (cs.getLastD (0, 0)).2, 0x21, 0x21]]) ++
            itemScan qm post) := by
  obtain ⟨a0, b0, ws0, hws⟩ : ∃ a b ws,
      runItems cs ++ post = Item.dbyte a b :: ws := by
    rcases cs with _ | ⟨c, cs'⟩
    · simp at hn
    · exact ⟨c.1, c.2, runItems cs' ++ post, rfl⟩
  have hhead0 : ideoHead (runItems cs ++ post) = true := by
    rcases cs with _ | ⟨c, cs'⟩
    · simp at hn
    · show ideoHead (Item.dbyte c.1 c.2 :: (runItems cs' ++ post)) = true
      rw [ideoHead_cons_dbyte]
      have h := hwcs c (List.mem_cons_self _ _)
      simp only [wfChar, decide_eq_true_eq] at h
      simp only [is_big5word, decide_eq_true_eq]
      omega
  intro n
  induction n with
  | zero =>
    intro pre hlen _ _
    have hnil : pre = [] := List.length_eq_zero.mp (by omega)
    subst hnil
    simp only [List.nil_append]
    rw [itemScan_run qm cs post hwcs hn hp]
    rfl
  | succ n ih =>
    intro pre hlen hw hlast
    cases pre with
    | nil =>
      simp only [List.nil_append]
      rw [itemScan_run qm cs post hwcs hn hp]
      rfl
    | cons x pre' =>
      have hw' : ∀ it ∈ pre', it.wfb = true :=
        fun i hi => hw i (List.mem_cons_of_mem _ hi)
      have hlen' : pre'.length ≤ n := by
        simp only [List.length_cons] at hlen
        omega
      cases x with
      | ascii b =>
        have hlast' : lastIdeo pre' = false := by
          cases pre' with
          | nil => rfl
          | cons y l =>
            rw [← lastIdeo_cons (Item.ascii b) (y :: l) (by simp)]
            exact hlast
        by_cases ha : is_alnum b = true
        · show itemScan qm (Item.ascii b :: (pre' ++ (runItems cs ++ post))) = _
          rw [itemScan_ascii_pos qm b _ ha, itemScan_ascii_pos qm b pre' ha]
          have hab := alnumBytes_append_dbyte pre' a0 b0 ws0
          have h1 : alnumBytes (pre' ++ (runItems cs ++ post)) = alnumBytes pre' := by
            rw [hws]
            exact hab.1
          have h2 : alnumDrop (pre' ++ (runItems cs ++ post)) =
              alnumDrop pre' ++ (runItems cs ++ post) := by
            rw [hws]
            exact hab.2
          rw [h1, h2]
          obtain ⟨us, hus⟩ := alnumDrop_suffix pre'
          rw [ih (alnumDrop pre')
            (by have := alnumDrop_len pre'; omega)
            (fun i hi => hw' i (mem_alnumDrop hi))
            (lastIdeo_suffix us hus hlast')]
          simp only [List.append_assoc]
        · show itemScan qm (Item.ascii b :: (pre' ++ (runItems cs ++ post))) = _
          rw [itemScan_ascii_neg qm b _ ha, itemScan_ascii_neg qm b pre' ha]
          exact ih pre' hlen' hw' hlast'
      | dbyte l t =>
        cases pre' with
        | nil =>
          have hlw : ¬ is_big5word l = true := by
            simp only [lastIdeo, List.getLast?_singleton, Item.isIdeo] at hlast
            simp [hlast]
          show itemScan qm (Item.dbyte l t :: ([] ++ (runItems cs ++ post))) = _
          rw [List.nil_append]
          rw [itemScan_dbyte_ideo qm l t _ hhead0]
          have hrr := ideoRun_runItems cs post hwcs hp
          rw [hrr.1, hrr.2, if_neg hlw]
          have hpc : penultD ((l, t) :: cs) = penultD cs := penultD_cons (l, t) cs hn
          have hpw : is_big5word (penultD cs).1 = true := by
            have h := hwcs _ (penultD_mem cs hn)
            simp only [wfChar, decide_eq_true_eq] at h
            simp only [is_big5word, decide_eq_true_eq]
            omega
          rw [hpc, hpw, Bool.and_true]
          rw [itemScan_dbyte_non qm l t [] (by simp [ideoHead]), if_neg hlw,
            itemScan_nil]
          simp only [List.nil_append, List.append_assoc]
        | cons y l' =>
          have hne : (y :: l') ≠ [] := by simp
          have hlast' : lastIdeo (y :: l') = false := by
            rw [← lastIdeo_cons (Item.dbyte l t) (y :: l') hne]
            exact hlast
          have hra := ideoRun_append (y :: l') (runItems cs ++ post) hne hlast'
          have hha : ideoHead ((y :: l') ++ (runItems cs ++ post)) =
              ideoHead (y :: l') := ideoHead_append (y :: l') _ hne
          by_cases hh : ideoHead (y :: l') = true
          · show itemScan qm
              (Item.dbyte l t :: ((y :: l') ++ (runItems cs ++ post))) = _
            rw [itemScan_dbyte_ideo qm l t _ (by rw [hha]; exact hh),
              itemScan_dbyte_ideo qm l t (y :: l') hh]
            rw [hra.1, hra.2]
            obtain ⟨us, hus⟩ := ideoDrop_suffix (y :: l')
            rw [ih (ideoDrop (y :: l'))
              (by have := ideoDrop_len (y :: l')
                  simp only [List.length_cons] at hlen ⊢
                  omega)
              (fun i hi => hw' i (mem_ideoDrop hi))
              (lastIdeo_suffix us hus hlast')]
            simp only [List.append_assoc]
          · show itemScan qm
              (Item.dbyte l t :: ((y :: l') ++ (runItems cs ++ post))) = _
            rw [itemScan_dbyte_non qm l t _ (by rw [hha]; exact hh),
              itemScan_dbyte_non qm l t (y :: l') hh]
            rw [ih (y :: l') hlen' hw' hlast']
            simp only [List.append_assoc]

/-- C1: For every maximal run of n (n >= 2) consecutive CJK-ideograph
characters in the input buffer (characters with lead byte above 0xa3,
bounded on both sides by non-ideograph content), extract_words inserts
exactly the n - 1 overlapping 4-byte bigrams of adjacent characters in the
run, plus exactly one trailing unigram token (the last character's two
bytes followed by 0x21 0x21) - except that the unigram is suppressed when
the query flag is set, the byte read at p-4 then being the penultimate run
character's ideograph lead byte; tokens outside the run are exactly those
of the surrounding input scanned alone (parse.c lines 146-177). -/
theorem tokenizer_bigram_run (qm : Bool) (pre post : List Item)
    (cs : List (Nat × Nat))
    (hwpre : ∀ it ∈ pre, it.wfb = true) (hwpost : ∀ it ∈ post, it.wfb = true)
    (hwcs : ∀ c ∈ cs, wfChar c = true) (hn : 2 ≤ cs.length)
    (hmaxl : lastIdeo pre = false) (hmaxr : ideoHead post = false) :
    extract_words qm (render (pre ++ runItems cs ++ post)) =
      extract_words qm (render pre)
        ++ pairsTok cs
        ++ (if qm then []
            else [[(cs.getLastD (0, 0)).1, (cs.getLastD (0, 0)).2, 0x21, 0x21]])
        ++ extract_words qm (render post)
      ∧ (pairsTok cs).length + 1 = cs.length := by
  have hwrun : ∀ it ∈ runItems cs, it.wfb = true := by
    intro it hit
    simp only [runItems, List.mem_map] at hit
    obtain ⟨c, hc, rfl⟩ := hit
    have h := hwcs c hc
    simp only [wfChar, decide_eq_true_eq] at h
    simp only [Item.wfb, decide_eq_true_eq]
    omega
  have hwall : ∀ it ∈ pre ++ runItems cs ++ post, it.wfb = true := by
    intro it hit
    rcases List.mem_append.mp hit with h | h
    · rcases List.mem_append.mp h with h2 | h2
      · exact hwpre it h2
      · exact hwrun it h2
    · exact hwpost it h
  constructor
  · rw [extract_words_model qm _ hwall, extract_words_model qm pre hwpre,
      extract_words_model qm post hwpost]
    rw [show pre ++ runItems cs ++ post = pre ++ (runItems cs ++ post)
      from List.append_assoc pre (runItems cs) post]
    rw [itemScan_split qm cs post hwcs hn hmaxr pre.length pre le_rfl hwpre hmaxl]
    simp only [List.append_assoc]
  · exact pairsTok_len cs (by
      intro h
      rw [h] at hn
      simp at hn)

/-- Concrete instance of the run decomposition: an ascii letter, then the
two-character ideograph run 0xa4 0x40 0xa5 0x41, then an ascii letter, with
query mode off. -/
theorem tokenizer_bigram_run_witness :
    (extract_words false
        (render ([Item.ascii 0x41] ++ runItems [(0xa4, 0x40), (0xa5, 0x41)]
          ++ [Item.ascii 0x42])) =
      extract_words false (render [Item.ascii 0x41])
        ++ pairsTok [(0xa4, 0x40), (0xa5, 0x41)]
        ++ (if false then []
            else [[(([(0xa4, 0x40), (0xa5, 0x41)] :
                      List (Nat × Nat)).getLastD (0, 0)).1,
                   (([(0xa4, 0x40), (0xa5, 0x41)] :
                      List (Nat × Nat)).getLastD (0, 0)).2, 0x21, 0x21]])
        ++ extract_words false (render [Item.ascii 0x42])
      ∧ (pairsTok [(0xa4, 0x40), (0xa5, 0x41)]).length + 1 =
          ([(0xa4, 0x40), (0xa5, 0x41)] : List (Nat × Nat)).length) :=
  tokenizer_bigram_run false [Item.ascii 0x41] [Item.ascii 0x42]
    [(0xa4, 0x40), (0xa5, 0x41)] (by decide) (by decide) (by decide) (by decide)
    (by decide) (by decide)

